import Mathlib

/-!
A shallow embedding of `workclock.py` (the punch-ledger core of the work
time clock) and proofs about it.

Modelling conventions, fixed once for the whole file:

* Timestamps are modelled as `Nat` (seconds).  The source renders a
  `datetime` with `strftime("%c")` and reads it back with
  `datetime.strptime(_, "%c")`; here rendering is `Nat.repr` and parsing
  succeeds exactly on rendered values.  Durations (`timedelta`) are `Int`
  seconds (the source uses `total_seconds()`, a float that is integral at
  second granularity).
* The persisted file is a list of lines.  The three header lines are kept
  as their variable suffixes (`lines[1][len(HEADER1):]` etc.); the literal
  header row `lines[3]` is constant and carried implicitly.  Each project
  line is kept in its `" | "`-split form: name, cached-total field, and
  punch fields.  A punch field is structural: `closed a b` stands for the
  text `repr a ++ " -> " ++ repr b`, `opn a` for the bare text `repr a`.
  The split form round-trips with the joined text whenever no field
  contains the separator, which holds for every state the theorems below
  touch; the project-lookup, which the source performs on the *joined*
  text (`l[:length] == project`), is modelled on the rendered line text.
* Python exceptions are `Except.error`; the distinct constructors of
  `Err` record which raise statement fired (all are `ValueError`s except
  `attrErr`, which is the `AttributeError` raised by evaluating
  `previous_time.year` on a `str`).  A print-then-`return` "failure"
  (already clocked in/out, invalid clock-out time) is not an exception in
  the source: it is modelled as a normal result that carries the printed
  message and writes nothing.
* Each mutating operation returns `OpResult`: `written = some l` models
  the final `f.write('\n'.join(lines))` of the new state `l`, and
  `written = none` means the function returned without writing the file,
  i.e. the ledger on disk is unmodified.  `output` models the `print`
  calls, one `Msg` per print statement, carrying the interpolated values.
-/

namespace Workclock

/-- `" -> "`, the separator inside a punch field (src line 116). -/
def IN_OUT_SEP : String := " -> "

/-- `" | "`, the separator between record fields (src line 117). -/
def PUNCH_SEP : String := " | "

/-- `"YES"` (src line 126). -/
def YES : String := "YES"

/-- `"NO"` (src line 127). -/
def NO : String := "NO"

def SEC_PER_HOUR : Int := 3600

def SEC_PER_MIN : Int := 60

/-- Seconds per day, used to model `datetime(year, month, day, h, m)`:
combining the current date with an hour:minute pair. -/
def SEC_PER_DAY : Nat := 86400

/-- A punch field of a project line.  `closed a b` is the text
`repr a ++ " -> " ++ repr b`; `opn a` is the bare in-time `repr a`
of the currently open punch. -/
inductive Punch where
  | closed (tin tout : Nat)
  | opn (tin : Nat)
deriving DecidableEq, Repr

/-- One project line of the punches file in `" | "`-split form:
`<name> | <total> | <punch> | <punch> | ...` (src §6 layout). -/
structure ProjLine where
  name : String
  total : String
  punches : List Punch
deriving DecidableEq, Repr

/-- The persisted ledger: the variable parts of the three header lines
plus the project lines.  `started` is the suffix of line 0, `lastProj`
of line 1 (`"Last Project: "`), `clockedF` of line 2 (`"Clocked In: "`). -/
structure Lines where
  started : String
  lastProj : String
  clockedF : String
  projLines : List ProjLine
deriving DecidableEq, Repr

/-- The fresh ledger built by `parse_file` when no punches file exists
(src lines 141-147). -/
def initLedger (now : Nat) : Lines :=
  { started := Nat.repr now, lastProj := "", clockedF := NO, projLines := [] }

/-- Python `str.split(c)` for a one-character separator, on code points. -/
def splitChar (c : Char) : List Char → List (List Char)
  | [] => [[]]
  | a :: rest =>
    match splitChar c rest with
    | h :: t => if a == c then [] :: h :: t else (a :: h) :: t
    | [] => if a == c then [[], []] else [[a]]

/-- `previous_time.split(':')` (src lines 201, 238). -/
def splitOnColon (s : String) : List String :=
  (splitChar ':' s.data).map fun l => String.mk l

/-- Python `str.lower()` (`project.lower()`), per code point. -/
def strLower (s : String) : String := String.mk (s.data.map Char.toLower)

/-- Python `int(_)` on the hour and minute fields: the value of an
all-digits string, `none` (a `ValueError`) otherwise. -/
def strToNat? (s : String) : Option Nat :=
  if !s.data.isEmpty && s.data.all Char.isDigit then
    some (s.data.foldl (fun n c => n * 10 + (c.toNat - 48)) 0)
  else none

/-- Which Python raise statement fired. -/
inductive Err where
  /-- `ValueError("Must specify project if no history")` (src line 154). -/
  | noHistory
  /-- `ValueError` from `datetime.strptime(s, TIMEF)` on a non-timestamp. -/
  | strptimeErr
  /-- `ValueError` from unpacking a `split` that did not yield two parts. -/
  | unpackErr
  /-- `ValueError` from `int(_)` on a non-digit string or from `datetime`
  rejecting an out-of-range hour or minute. -/
  | valueErr
  /-- `AttributeError`: `previous_time.year` where `previous_time : str`
  (src line 239). -/
  | attrErr
deriving DecidableEq, Repr

/-- The rendered text of a punch field. -/
def renderPunch : Punch → String
  | .closed a b => Nat.repr a ++ IN_OUT_SEP ++ Nat.repr b
  | .opn a => Nat.repr a

/-- The rendered text of the punch fields, each preceded by `" | "`. -/
def punchesText : List Punch → String
  | [] => ""
  | p :: ps => PUNCH_SEP ++ renderPunch p ++ punchesText ps

/-- The full text of a project line, i.e. `PUNCH_SEP.join(line)` of its
split form: `name | total | punch | ...`. -/
def lineText (pl : ProjLine) : String :=
  pl.name ++ (PUNCH_SEP ++ pl.total ++ punchesText pl.punches)

/-- `l[:length] == project` (src line 171): the project-lookup test is a
character-prefix test of `project` against the joined line text. -/
def lineMatches (project : String) (pl : ProjLine) : Bool :=
  project.data.isPrefixOf (lineText pl).data

/-- The `for i, l in enumerate(lines[HEADER_L:])` search of `parse_line`
(src lines 169-174): index and content of the first matching line. -/
def findLine (project : String) : List ProjLine → Option (Nat × ProjLine)
  | [] => none
  | pl :: rest =>
    if lineMatches project pl then some (0, pl)
    else (findLine project rest).map (fun jq => (jq.1 + 1, jq.2))

/-- `time_in, time_out = punch.split(IN_OUT_SEP)` followed by two
`strptime`s and a subtraction (src lines 184-187).  On an open punch the
split yields a single part and the unpacking raises `ValueError`. -/
def punchDelta : Punch → Except Err Int
  | .closed a b => .ok ((b : Int) - (a : Int))
  | .opn _ => .error .unpackErr

/-- The `for punch in ...: times.append(time_out - time_in)` loop of
`parse_line` (src lines 183-187), stopping at the first raise. -/
def punchDeltas : List Punch → Except Err (List Int)
  | [] => .ok []
  | q :: rest =>
    match punchDelta q with
    | .error e => .error e
    | .ok d =>
      match punchDeltas rest with
      | .error e => .error e
      | .ok ds => .ok (d :: ds)

/-- `last = None if project_in else datetime.strptime(line[-1], TIMEF)`
(src line 181): when the line has no punch fields `line[-1]` is the
total field, never a rendered timestamp, so `strptime` raises; so does a
closed last field `"a -> b"`. -/
def lastFieldOf (project_in : Bool) (punches : List Punch) :
    Except Err (Option Nat) :=
  if project_in then .ok none
  else match punches.getLast? with
    | some (.opn a) => .ok (some a)
    | some (.closed _ _) => .error .strptimeErr
    | none => .error .strptimeErr

/-- The result of `parse_line`: the (possibly fresh) split line, its
index among the project lines, the parsed last field (`None` when
`project_in`), whether the line is new, and the closed-punch durations. -/
structure ParsedLine where
  line : ProjLine
  idx : Nat
  last : Option Nat
  isNew : Bool
  times : List Int
deriving DecidableEq, Repr

/-- `parse_line(lines, project, project_in)` (src lines 162-189).

* the first line whose text starts with `project` is used; if none
  matches, the fresh split line `[project, "0"]` is created (`new`),
  with the source's past-the-end index;
* `last = None if project_in else strptime(line[-1])`: when the line has
  no punch fields, `line[-1]` is the total field (or `"0"` for a fresh
  line), which is never a rendered timestamp, so `strptime` raises; a
  closed last field `"a -> b"` is not a timestamp either;
* the duration loop runs over `line[2:]` if `project_in` else
  `line[2:-1]`, and raises on any open punch it meets. -/
def parse_line (ls : Lines) (project : String) (project_in : Bool) :
    Except Err ParsedLine :=
  match findLine project ls.projLines with
  | some (j, pl) =>
    match lastFieldOf project_in pl.punches with
    | .error e => .error e
    | .ok last =>
      match punchDeltas (if project_in then pl.punches else pl.punches.dropLast) with
      | .error e => .error e
      | .ok times => .ok ⟨pl, j, last, false, times⟩
  | none =>
    if project_in then
      .ok ⟨⟨project, "0", []⟩, (if ls.projLines.isEmpty then 1 else ls.projLines.length),
           none, true, []⟩
    else
      -- `last = strptime("0")` on the fresh `[project, "0"]` line raises
      .error .strptimeErr

/-- `parse_file(project)` minus the file I/O (src lines 149-159): returns
`finished` (`lines[2][len(HEADER2):] == NO`) and the resolved, lower-cased
project name; raises when no project is given and there is no history. -/
def parse_file (ls : Lines) (project : Option String) :
    Except Err (Bool × String) :=
  let finished := ls.clockedF == NO
  match project with
  | none =>
    if ls.lastProj == "" then .error .noHistory
    else .ok (finished, ls.lastProj)
  | some p => .ok (finished, strLower p)

/-- `int(sec // 3600)`, `sec % 3600` etc. of `fnum` (src lines 414-420):
Python `//` is flooring division and `%` with a positive divisor is
`Int.emod`; the values are integral so `int(..)` is the identity.  Note
the format string `f"{hrs}:{mins}:{sec}"` does not zero-pad. -/
def fnum (sec : Int) : String :=
  let hrs := Int.fdiv sec SEC_PER_HOUR
  let r := Int.emod sec SEC_PER_HOUR
  let mins := Int.fdiv r SEC_PER_MIN
  let s2 := Int.emod r SEC_PER_MIN
  toString hrs ++ ":" ++ toString mins ++ ":" ++ toString s2

/-- One `print` call of the source, carrying the interpolated values. -/
inductive Msg where
  /-- A constant print-and-return failure message (src lines 196, 234, 241). -/
  | failText (text : String)
  /-- `f"Created Project: ..."` -/
  | createdProject (project : String)
  /-- `f"CLOCK IN, Project: ..."` -/
  | clockInProject (project : String)
  /-- `f"IN: {in_time}"` -/
  | inAt (tin : String)
  /-- `f"... Total Hrs: {fnum(total)}"` -/
  | projTotal (project total : String)
  /-- `f"CLOCK OUT, Project: ..."` -/
  | clockOutProject (project : String)
  /-- `f"IN: {..}, OUT: {..}"` -/
  | inOutAt (tin tout : String)
  /-- `f"... Total Hrs: {..}, Current Punch: {..}"` -/
  | totalPunch (project total punch : String)
  /-- `"CURRENTLY CLOCKED OUT, Project Switched From: .., To: .."` -/
  | switchedOut (fromP toP : String)
  /-- `f"NOW: {now}"` -/
  | nowAt (t : String)
  /-- `"CLOCK IN,  Project: .."` (second line of the in-switch report) -/
  | switchInProject (project : String)
  /-- `f"'{p}' IN: {..}, NOW: {..}"` -/
  | inNow (project tin now : String)
  /-- `"CURRENTLY CLOCKED OUT, Last Project: .."` -/
  | statusOut (project : String)
  /-- `"CURRENTLY CLOCKED IN, Project: .."` -/
  | statusIn (project : String)
  /-- `f"IN: {..}, NOW: {..}"` (check_time) -/
  | inNowAt (tin now : String)
  /-- `"PROJECT REPORT FOR: .."` -/
  | reportHeader (project : String)
  /-- `"Is Current: .., Clocked In: .."` -/
  | reportFlags (current clockedIn : String)
  /-- `f"Total Hrs: {..}" + addon` -/
  | reportTotal (total addon : String)
  /-- `f"Number of Clock-Ins: {..}"` -/
  | reportCount (n : Nat)
  /-- `"PUNCHES:" followed by line[2:]` -/
  | reportPunches (ps : List String)
  /-- `"WORK CLOCK PROJECTS"` -/
  | listHeader
  /-- `f"{'Last' or 'Current'} Project: .."` -/
  | listCurrent (label project : String)
  /-- `f"Clocked In: {..}"` -/
  | listClocked (s : String)
  /-- `"PROJECT \tTOTAL +current"` -/
  | listCols
  /-- one row of the `list` report: name and hours (+ running addon) -/
  | listEntry (project hours : String)
deriving DecidableEq, Repr

/-- The message printed by `clock_in` when already clocked in
(src line 196).  It is a constant: it does not name the open project. -/
def ALREADY_IN_MSG : String :=
  "ALREADY CLOCKED IN; Correct missed clock-out first by clocking out with added argument for (24-hr formatted) time of day, \"hour:minute\""

/-- The message printed by `clock_out` when already clocked out
(src line 234; the source misspells ALREADY). -/
def ALREADY_OUT_MSG : String :=
  "ALREAD CLOCKED OUT; Correct missed clock-in first by clocking in with added argument for (24-hr formatted) time of day, \"hour:minute\""

/-- The message printed for a backdated clock-out at or before the
clock-in time (src line 241); unreachable, see `clock_out`. -/
def INVALID_TIME_MSG : String :=
  "Invalid time, less than clock-in time. If clock out was after midnight, correct by punching out at midnight, then making an extra punch in before punching out."

/-- The outcome of one operation: the state written to the punches file
(`none` when the function returned without writing) and the printed
report. -/
structure OpResult where
  written : Option Lines
  output : List Msg
deriving DecidableEq, Repr

/-- `datetime(in_time.year, in_time.month, in_time.day, int(h), int(m))`
(src line 202): the hour:minute pair is combined with the current date.
`int(_)` is modelled by `String.toNat?` and `datetime` rejects hours
outside 0..23 and minutes outside 0..59. -/
def combineHM (now : Nat) (pt : String) : Except Err Nat :=
  match splitOnColon pt with
  | [h, m] =>
    match strToNat? h, strToNat? m with
    | some hn, some mn =>
      if hn < 24 && mn < 60 then
        .ok (now / SEC_PER_DAY * SEC_PER_DAY + hn * 3600 + mn * 60)
      else .error .valueErr
    | _, _ => .error .valueErr
  | _ => .error .unpackErr

/-- The in-time of `clock_in` (src lines 199-202): `datetime.now()`,
replaced by the current-date/`hour:minute` combination when a non-empty
(`if previous_time:`) backdating argument is given. -/
def inTimeOf (now : Nat) : Option String → Except Err Nat
  | some pt => if pt.isEmpty then .ok now else combineHM now pt
  | none => .ok now

/-- The out-time of `clock_out` (src lines 237-244).  A non-empty
backdating argument first unpacks `previous_time.split(':')` (src line
238) and then evaluates `previous_time.year` — an attribute access on a
`str`, which always raises `AttributeError` (src line 239); hence the
`out <= last` comparison of src line 240 is unreachable. -/
def outTimeOf (now : Nat) : Option String → Except Err Nat
  | some pt =>
    if pt.isEmpty then .ok now
    else match splitOnColon pt with
      | [_, _] => .error .attrErr
      | _ => .error .unpackErr
  | none => .ok now

/-- `last` of the line being reported on or switched away from: `None`
when `finished`, otherwise the parsed open in-time; the error stands for
the source's crash on a missing in-time (unreachable after a successful
`parse_line` with `project_in = False`). -/
def openLastOf (finished : Bool) (last : Option Nat) : Except Err (Option Nat) :=
  if finished then .ok none
  else match last with
    | some l => .ok (some l)
    | none => .error .strptimeErr

/-- `clock_in(project, previous_time)` (src lines 192-227).

Order as in the source: `parse_file`, the already-clocked-in check (print
and return, nothing written), `parse_line` with `project_in = finished`,
then the optional backdating of `in_time`; the new open punch field is
appended to the line, `lines[2] = YES`, `lines[1] = project`, the line is
stored back (or appended when new) and the file is written. -/
def clock_in (ls : Lines) (project : Option String)
    (previous_time : Option String) (now : Nat) : Except Err OpResult :=
  match parse_file ls project with
  | .error e => .error e
  | .ok (finished, proj) =>
    if !finished then .ok ⟨none, [.failText ALREADY_IN_MSG]⟩
    else
      match parse_line ls proj finished with
      | .error e => .error e
      | .ok pr =>
        match inTimeOf now previous_time with
        | .error e => .error e
        | .ok in_time =>
          let total : Int := pr.times.sum
          let newLine : ProjLine :=
            { pr.line with punches := pr.line.punches ++ [.opn in_time] }
          let ls' : Lines :=
            { ls with
                clockedF := YES
                lastProj := proj
                projLines :=
                  if pr.isNew then ls.projLines ++ [newLine]
                  else ls.projLines.set pr.idx newLine }
          .ok ⟨some ls',
               (if pr.isNew then [Msg.createdProject proj] else []) ++
               [Msg.clockInProject proj, Msg.inAt (Nat.repr in_time),
                Msg.projTotal proj (fnum total)]⟩

/-- `clock_out(previous_time)` (src lines 230-267).

The backdated branch first unpacks `previous_time.split(':')` and then
evaluates `previous_time.year` — an attribute access on a `str`, which
always raises `AttributeError` (src line 239), so the
`InvalidClockOutTime` comparison on line 240 is unreachable.  In the
normal branch the open punch's field becomes `"in -> out"`, the cached
total field is rewritten to `fnum(total)` and `lines[2] = NO`. -/
def clock_out (ls : Lines) (previous_time : Option String) (now : Nat) :
    Except Err OpResult :=
  match parse_file ls none with
  | .error e => .error e
  | .ok (finished, proj) =>
    if finished then .ok ⟨none, [.failText ALREADY_OUT_MSG]⟩
    else
      match parse_line ls proj finished with
      | .error e => .error e
      | .ok pr =>
        match outTimeOf now previous_time with
        | .error e => .error e
        | .ok out =>
          match pr.last with
          | none => .error .strptimeErr  -- unreachable: project_in was False
          | some last =>
            let punch : Int := (out : Int) - (last : Int)
            let times := pr.times ++ [punch]
            let total : Int := times.sum
            let newLine : ProjLine :=
              { pr.line with
                  total := fnum total
                  punches := pr.line.punches.dropLast ++ [.closed last out] }
            let ls' : Lines :=
              { ls with
                  clockedF := NO
                  projLines := ls.projLines.set pr.idx newLine }
            .ok ⟨some ls',
                 [Msg.clockOutProject proj,
                  Msg.inOutAt (Nat.repr last) (Nat.repr out),
                  Msg.totalPunch proj (fnum total) (fnum punch)]⟩

/-- `switch_project(project)` (src lines 270-323).

Parses the current project's line with `project_in = finished` and the
target's line with `project_in = True`; if clocked in, closes the current
punch at `now`, rewrites its total field, and appends a new open punch
field holding the *same* `now` to the target line; `lines[1]` becomes the
target, `lines[2]` is untouched. -/
def switch_project (ls : Lines) (project0 : String) (now : Nat) :
    Except Err OpResult :=
  let project := strLower project0
  match parse_file ls none with
  | .error e => .error e
  | .ok (finished, last_project) =>
    match parse_line ls last_project finished with
    | .error e => .error e
    | .ok p1 =>
      match parse_line ls project true with
      | .error e => .error e
      | .ok p2 =>
        match openLastOf finished p1.last with
        | .error e => .error e
        | .ok none =>
          -- clocked out: a pure rename of the last project
          let total1 : Int := p1.times.sum
          let total2 : Int := p2.times.sum
          let ls1 : Lines := { ls with lastProj := project }
          let ls3 : Lines :=
            if p2.isNew then { ls1 with projLines := ls1.projLines ++ [p2.line] }
            else { ls1 with projLines := ls1.projLines.set p2.idx p2.line }
          .ok ⟨some ls3,
               (if p2.isNew then [Msg.createdProject project] else []) ++
               [Msg.switchedOut last_project project, Msg.nowAt (Nat.repr now),
                Msg.projTotal last_project (fnum total1),
                Msg.projTotal project (fnum total2)]⟩
        | .ok (some l1) =>
          -- clocked in: close the current punch, open one on the target
          let punch1 : Int := (now : Int) - (l1 : Int)
          let total1 : Int := (p1.times ++ [punch1]).sum
          let total2 : Int := p2.times.sum
          let newL1 : ProjLine :=
            { p1.line with
                total := fnum total1
                punches := p1.line.punches.dropLast ++ [Punch.closed l1 now] }
          let line2 : ProjLine :=
            { p2.line with punches := p2.line.punches ++ [Punch.opn now] }
          let ls2 : Lines :=
            { ls with
                lastProj := project
                projLines := ls.projLines.set p1.idx newL1 }
          let ls3 : Lines :=
            if p2.isNew then { ls2 with projLines := ls2.projLines ++ [line2] }
            else { ls2 with projLines := ls2.projLines.set p2.idx line2 }
          .ok ⟨some ls3,
               (if p2.isNew then [Msg.createdProject project] else []) ++
               [Msg.clockOutProject last_project, Msg.switchInProject project,
                Msg.inNow last_project (Nat.repr l1) (Nat.repr now),
                Msg.totalPunch last_project (fnum total1) (fnum punch1),
                Msg.projTotal project (fnum total2)]⟩

/-- `check_time()` (src lines 326-348): the status report.  Read-only:
the source contains no write and no mutation of `lines`. -/
def check_time (ls : Lines) (now : Nat) : Except Err OpResult :=
  match parse_file ls none with
  | .error e => .error e
  | .ok (finished, proj) =>
    match parse_line ls proj finished with
    | .error e => .error e
    | .ok pr =>
      match openLastOf finished pr.last with
      | .error e => .error e
      | .ok last? =>
        let times := match last? with
          | some l => pr.times ++ [(now : Int) - (l : Int)]
          | none => pr.times
        let total : Int := times.sum
        let nowS := Nat.repr now
        let out :=
          match last? with
          | none =>
            [Msg.statusOut proj, Msg.nowAt nowS, Msg.projTotal proj (fnum total)]
          | some l =>
            [Msg.statusIn proj,
             Msg.inNowAt (Nat.repr l) nowS,
             Msg.totalPunch proj (fnum total) (fnum ((now : Int) - (l : Int)))]
        .ok ⟨none, out⟩

/-- `report_project(project)` (src lines 351-377).  Read-only: prints
`Created Project` for an unknown name but never creates or writes
anything. -/
def report_project (ls : Lines) (project : Option String) (now : Nat) :
    Except Err OpResult :=
  match parse_file ls none with
  | .error e => .error e
  | .ok (finished, current_project) =>
    let proj := match project with
      | none => current_project
      | some s => strLower s
    let current := proj == current_project
    let line_finished := if current then finished else true
    match parse_line ls proj line_finished with
    | .error e => .error e
    | .ok pr =>
      match openLastOf line_finished pr.last with
      | .error e => .error e
      | .ok last? =>
        let times := match last? with
          | some l => pr.times ++ [(now : Int) - (l : Int)]
          | none => pr.times
        let total : Int := times.sum
        let addon := match last? with
          | none => ""
          | some l => ", Current Punch: " ++ fnum ((now : Int) - (l : Int))
        let clockedStr :=
          if !line_finished then YES
          else if finished then NO else current_project
        let out :=
          (if pr.isNew then [Msg.createdProject proj] else []) ++
          [Msg.reportHeader proj,
           Msg.reportFlags (if current then YES else NO) clockedStr,
           Msg.reportTotal (fnum total) addon,
           Msg.reportCount times.length,
           Msg.reportPunches (pr.line.punches.map renderPunch)]
        .ok ⟨none, out⟩

/-- `list_projects()` (src lines 380-403).  Read-only.  The running-total
addon is attached to the rows whose name field equals the current
project exactly (`proj == project`, src line 402). -/
def list_projects (ls : Lines) (now : Nat) : Except Err OpResult :=
  match parse_file ls none with
  | .error e => .error e
  | .ok (finished, proj) =>
    match parse_line ls proj finished with
    | .error e => .error e
    | .ok pr =>
      match openLastOf finished pr.last with
      | .error e => .error e
      | .ok last? =>
        let addon := match last? with
          | none => ""
          | some l => " +" ++ fnum ((now : Int) - (l : Int))
        let out :=
          [Msg.listHeader,
           Msg.listCurrent (if finished then "Last" else "Current") proj,
           Msg.listClocked (if finished then NO else YES),
           Msg.listCols] ++
          ls.projLines.map (fun pl =>
            Msg.listEntry pl.name
              (pl.total ++ (if pl.name == proj then addon else "")))
        .ok ⟨none, out⟩

/-! ### State predicates

The invariant of the ledger, as maintained by the three mutating
operations, phrased over the split-line model. -/

/-- Is this punch field closed (`"a -> b"`)? -/
def isClosedPunch : Punch → Bool
  | .closed _ _ => true
  | .opn _ => false

/-- Does this line end in an open punch field? -/
def openAt (pl : ProjLine) : Bool :=
  match pl.punches.getLast? with
  | some (.opn _) => true
  | _ => false

/-- All punch fields but possibly the last are closed. -/
def punchesWF (pl : ProjLine) : Bool :=
  pl.punches.dropLast.all isClosedPunch

/-- A well-formed project name: free of the `'|'` separator character,
so that its line round-trips through the `" | "` join/split and the
prefix lookup is decided by the name field alone. -/
def nameWF (s : String) : Bool :=
  !s.data.contains '|'

/-- Exactly the line at position `j` ends in an open punch. -/
def onlyOpenAt : List ProjLine → Nat → Bool
  | [], _ => false
  | pl :: rest, 0 => openAt pl && rest.all (fun q => !openAt q)
  | pl :: rest, j + 1 => !openAt pl && onlyOpenAt rest j

/-- The inductive invariant: the clocked-in flag is `YES` or `NO`; all
names are separator-free; every line is closed except possibly at its
last field; and if clocked out no line is open, while if clocked in the
prefix lookup of `lastProj` finds a line and that line is the unique
open one. -/
def linesWF (ls : Lines) : Bool :=
  (ls.clockedF == YES || ls.clockedF == NO) &&
  nameWF ls.lastProj &&
  ls.projLines.all (fun pl => nameWF pl.name && punchesWF pl) &&
  (if ls.clockedF == NO then ls.projLines.all (fun pl => !openAt pl)
   else
     match findLine ls.lastProj ls.projLines with
     | some jpl => onlyOpenAt ls.projLines jpl.1
     | none => false)

abbrev InvS (ls : Lines) : Prop := linesWF ls = true

/-- The number of project lines ending in an open punch. -/
def countOpen (ls : Lines) : Nat := (ls.projLines.filter openAt).length

/-- A well-formed operation argument: its lower-casing is separator-free. -/
abbrev optArgWF : Option String → Prop
  | none => True
  | some s => nameWF (strLower s) = true

/-- Ledgers reachable from a fresh ledger through written operations
whose project-name arguments are separator-free. -/
inductive ReachableWF : Lines → Prop where
  | init (now : Nat) : ReachableWF (initLedger now)
  | stepIn (ls ls' : Lines) (p pt : Option String) (now : Nat) (out : List Msg) :
      ReachableWF ls → optArgWF p →
      clock_in ls p pt now = .ok ⟨some ls', out⟩ → ReachableWF ls'
  | stepOut (ls ls' : Lines) (pt : Option String) (now : Nat) (out : List Msg) :
      ReachableWF ls →
      clock_out ls pt now = .ok ⟨some ls', out⟩ → ReachableWF ls'
  | stepSwitch (ls ls' : Lines) (p : String) (now : Nat) (out : List Msg) :
      ReachableWF ls → nameWF (strLower p) = true →
      switch_project ls p now = .ok ⟨some ls', out⟩ → ReachableWF ls'

/-- Run an alternating `clock_in p`/`clock_out` sequence, one pair per
listed `(in-time, out-time)`; `none` if any step fails or writes nothing. -/
def runInOut (p : String) : List (Nat × Nat) → Lines → Option Lines
  | [], ls => some ls
  | (a, b) :: rest, ls =>
    match clock_in ls (some p) none a with
    | .ok ⟨some ls1, _⟩ =>
      match clock_out ls1 none b with
      | .ok ⟨some ls2, _⟩ => runInOut p rest ls2
      | _ => none
    | _ => none

/-- The exact sum of the per-punch durations `time_out - time_in`. -/
def sumD (ts : List (Nat × Nat)) : Int :=
  (ts.map (fun ab => ((ab.2 : Nat) : Int) - ((ab.1 : Nat) : Int))).sum

/-- The closed punch field for an `(in, out)` pair. -/
def closedOf (ab : Nat × Nat) : Punch := Punch.closed ab.1 ab.2

/-- The duration of a closed punch (the `opn` value is never used: the
callers guard on closedness). -/
def deltaOf : Punch → Int
  | .closed a b => (b : Int) - (a : Int)
  | .opn _ => 0

/-! ### Concrete fixture ledgers used by counterexamples and witnesses -/

/-- A ledger clocked out after one completed punch on `alpha`. -/
def exOut : Lines :=
  { started := "0", lastProj := "alpha", clockedF := "NO",
    projLines := [⟨"alpha", "0:1:40", [Punch.closed 100 200]⟩] }

/-- A ledger currently clocked in on `alpha` since time 100. -/
def exIn : Lines :=
  { started := "0", lastProj := "alpha", clockedF := "YES",
    projLines := [⟨"alpha", "0", [Punch.opn 100]⟩] }

/-- A ledger currently clocked in on `beta` since time 100. -/
def exInBeta : Lines :=
  { started := "0", lastProj := "beta", clockedF := "YES",
    projLines := [⟨"beta", "0", [Punch.opn 100]⟩] }

/-- The ledger reached from a fresh store by `clock_in alpha` at 100,
`clock_out` at 200, then `clock_in al` at 300: the prefix lookup of
`al` resolves to `alpha`'s line, so the open punch lands there while
`last_project` becomes `al`. -/
def exAfterAl : Lines :=
  { started := "0", lastProj := "al", clockedF := "YES",
    projLines := [⟨"alpha", "0:1:40", [Punch.closed 100 200, Punch.opn 300]⟩] }

/-- The ledger written by `switch_project exIn "beta" 200`: `alpha`'s
open punch is closed at 200 and a fresh `beta` line opens at 200. -/
def exSwitched : Lines :=
  { started := "0", lastProj := "beta", clockedF := "YES",
    projLines := [⟨"alpha", "0:1:40", [Punch.closed 100 200]⟩,
                  ⟨"beta", "0", [Punch.opn 200]⟩] }

/-- A clocked-out ledger whose only project is `alphabet`. -/
def exAlphabet : Lines :=
  { started := "0", lastProj := "alphabet", clockedF := "NO",
    projLines := [⟨"alphabet", "0", [Punch.closed 1 2]⟩] }

end Workclock

deriving instance DecidableEq for Except

namespace Workclock

/-! ## Helper lemmas -/

theorem fdiv_ofNat (m n : Nat) :
    Int.fdiv (Int.ofNat m) (Int.ofNat n) = Int.ofNat (m / n) :=
  (Int.ofNat_fdiv m n).symm

theorem emod_ofNat (m n : Nat) :
    Int.emod (Int.ofNat m) (Int.ofNat n) = Int.ofNat (m % n) := rfl

theorem lineText_eq (pl : ProjLine) :
    lineText pl = pl.name ++ (PUNCH_SEP ++ pl.total ++ punchesText pl.punches) := rfl

/-- Every line is matched by its own exact name: the name is a prefix of
the joined line text. -/
theorem lineMatches_self (pl : ProjLine) : lineMatches pl.name pl = true := by
  have h : pl.name.data <+: (lineText pl).data := by
    rw [lineText_eq, String.data_append]
    exact List.prefix_append _ _
  simpa [lineMatches, List.isPrefixOf_iff_prefix] using h

theorem findLine_eq_none (p : String) (l : List ProjLine) :
    findLine p l = none ↔ ∀ pl ∈ l, lineMatches p pl = false := by
  induction l with
  | nil => simp [findLine]
  | cons hd tl ih =>
    by_cases h : lineMatches p hd
    · simp [findLine, h]
    · simp [findLine, h, ih]

theorem findLine_some (p : String) (l : List ProjLine) (j : Nat) (pl : ProjLine)
    (h : findLine p l = some (j, pl)) :
    l[j]? = some pl ∧ lineMatches p pl = true ∧
      ∀ k, k < j → ∀ q, l[k]? = some q → lineMatches p q = false := by
  induction l generalizing j with
  | nil => simp [findLine] at h
  | cons hd tl ih =>
    cases hm : lineMatches p hd with
    | true =>
      simp only [findLine, hm, if_true, Option.some.injEq, Prod.mk.injEq] at h
      obtain ⟨hj, hpl⟩ := h
      subst hpl
      subst hj
      exact ⟨by simp, hm, fun k hk q hq => absurd hk (by omega)⟩
    | false =>
      simp only [findLine, hm, Bool.false_eq_true, if_false] at h
      cases hf : findLine p tl with
      | none => rw [hf] at h; simp at h
      | some jq =>
        obtain ⟨j', pl'⟩ := jq
        rw [hf] at h
        simp only [Option.map_some', Option.some.injEq, Prod.mk.injEq] at h
        obtain ⟨hj1, hj2⟩ := h
        subst hj2
        subst hj1
        obtain ⟨h1, h2, h3⟩ := ih j' hf
        refine ⟨by simpa using h1, h2, ?_⟩
        intro k hk q hq
        cases k with
        | zero => simp at hq; subst hq; exact hm
        | succ k' => exact h3 k' (by omega) q (by simpa using hq)

/-- Inversion of a successful `parse_file`. -/
theorem parse_file_ok (ls : Lines) (p : Option String) (b : Bool) (s : String)
    (h : parse_file ls p = .ok (b, s)) :
    b = (ls.clockedF == NO) ∧
      ((p = none ∧ s = ls.lastProj ∧ ls.lastProj ≠ "") ∨
       (∃ q, p = some q ∧ s = strLower q)) := by
  cases p with
  | none =>
    simp only [parse_file] at h
    split at h
    · exact absurd h (by simp)
    · rename_i hne
      simp only [Except.ok.injEq, Prod.mk.injEq] at h
      obtain ⟨hb, hs⟩ := h
      exact ⟨hb.symm, Or.inl ⟨rfl, hs.symm, by simpa using hne⟩⟩
  | some q =>
    simp only [parse_file, Except.ok.injEq, Prod.mk.injEq] at h
    obtain ⟨hb, hs⟩ := h
    exact ⟨hb.symm, Or.inr ⟨q, rfl, hs.symm⟩⟩

/-- Inversion of a `clock_in` call that wrote the file: the state was
clocked out, and the new state is the old one with the flag set, the
last project set, and one open punch field appended to the looked-up
(or freshly appended) line. -/
theorem clock_in_inv (ls : Lines) (p pt : Option String) (now : Nat)
    (ls' : Lines) (out : List Msg)
    (h : clock_in ls p pt now = .ok ⟨some ls', out⟩) :
    ∃ proj pr t,
      parse_file ls p = .ok (true, proj) ∧
      (ls.clockedF == NO) = true ∧
      parse_line ls proj true = .ok pr ∧
      ls' = { ls with
                clockedF := YES
                lastProj := proj
                projLines :=
                  if pr.isNew then
                    ls.projLines ++
                      [{ pr.line with punches := pr.line.punches ++ [Punch.opn t] }]
                  else
                    ls.projLines.set pr.idx
                      { pr.line with punches := pr.line.punches ++ [Punch.opn t] } } := by
  rw [clock_in.eq_def] at h
  split at h
  · exact absurd h (by simp)
  · rename_i fs finished proj hpf
    split at h
    · exact absurd h (by simp)
    · rename_i hfin
      split at h
      · exact absurd h (by simp)
      · rename_i pr hpl
        split at h
        · exact absurd h (by simp)
        · rename_i t hit
          simp only [Except.ok.injEq, OpResult.mk.injEq] at h
          obtain ⟨hw, hout⟩ := h
          have hfin' : finished = true := by
            cases hfb : finished
            · rw [hfb] at hfin; simp at hfin
            · rfl
          refine ⟨proj, pr, t, ?_, ?_, ?_, ?_⟩
          · rw [hpf, hfin']
          · have := (parse_file_ok ls p finished proj hpf).1
            rw [hfin'] at this
            exact this.symm
          · rw [← hfin']
            exact hpl
          · cases hw
            rfl

theorem punchDeltas_ok {l : List Punch} {ts : List Int}
    (h : punchDeltas l = .ok ts) :
    (∀ q ∈ l, isClosedPunch q = true) ∧ ts = l.map deltaOf := by
  induction l generalizing ts with
  | nil =>
    simp only [punchDeltas, Except.ok.injEq] at h
    simp [← h]
  | cons hd tl ih =>
    cases hd with
    | closed a b =>
      cases hf : punchDeltas tl with
      | error e =>
        simp only [punchDeltas, punchDelta, hf] at h
        exact Except.noConfusion h
      | ok ts' =>
        simp only [punchDeltas, punchDelta, hf, Except.ok.injEq] at h
        obtain ⟨h1, h2⟩ := ih hf
        constructor
        · intro q hq
          rcases List.mem_cons.mp hq with hq2 | hq2
          · rw [hq2]; rfl
          · exact h1 q hq2
        · rw [← h, h2]
          rfl
    | opn a =>
      simp only [punchDeltas, punchDelta] at h
      exact Except.noConfusion h

theorem punchDeltas_closed {l : List Punch}
    (h : ∀ q ∈ l, isClosedPunch q = true) :
    punchDeltas l = .ok (l.map deltaOf) := by
  induction l with
  | nil => rfl
  | cons hd tl ih =>
    have hhd := h hd (by simp)
    cases hd with
    | opn a => simp [isClosedPunch] at hhd
    | closed a b =>
      simp only [punchDeltas, punchDelta,
        ih (fun q hq => h q (List.mem_cons_of_mem _ hq))]
      rfl

theorem punchDeltas_open {l : List Punch} (a : Nat)
    (h : ∀ q ∈ l, isClosedPunch q = true) :
    punchDeltas (l ++ [Punch.opn a]) = .error .unpackErr := by
  induction l with
  | nil => rfl
  | cons hd tl ih =>
    have hhd := h hd (by simp)
    cases hd with
    | opn b => simp [isClosedPunch] at hhd
    | closed b c =>
      rw [List.cons_append]
      simp only [punchDeltas, punchDelta,
        ih (fun q hq => h q (List.mem_cons_of_mem _ hq))]

/-- A list ending in an open punch is its `dropLast` plus that punch. -/
theorem punches_decomp {l : List Punch} {q : Punch}
    (h : l.getLast? = some q) : l = l.dropLast ++ [q] := by
  cases l with
  | nil => simp at h
  | cons hd tl =>
    have hne : hd :: tl ≠ ([] : List Punch) := by simp
    rw [List.getLast?_eq_getLast _ hne, Option.some.injEq] at h
    conv_lhs => rw [← List.dropLast_append_getLast hne]
    rw [h]

theorem lastFieldOf_ok {pin : Bool} {punches : List Punch} {last : Option Nat}
    (h : lastFieldOf pin punches = .ok last) :
    (pin = true ∧ last = none) ∨
    (pin = false ∧ ∃ a, last = some a ∧ punches.getLast? = some (.opn a)) := by
  cases pin with
  | true =>
    simp only [lastFieldOf, if_true] at h
    left
    simp only [Except.ok.injEq] at h
    exact ⟨rfl, h.symm⟩
  | false =>
    simp only [lastFieldOf, Bool.false_eq_true, if_false] at h
    right
    refine ⟨rfl, ?_⟩
    split at h
    · rename_i a hgl
      simp only [Except.ok.injEq] at h
      exact ⟨a, h.symm, hgl⟩
    · exact absurd h (by simp)
    · exact absurd h (by simp)

/-- Inversion of a successful `parse_line`. -/
theorem parse_line_inv (ls : Lines) (p : String) (pin : Bool) (pr : ParsedLine)
    (h : parse_line ls p pin = .ok pr) :
    (pr.isNew = false ∧ findLine p ls.projLines = some (pr.idx, pr.line) ∧
       ((pin = true ∧ pr.last = none ∧
           (∀ q ∈ pr.line.punches, isClosedPunch q = true) ∧
           pr.times = pr.line.punches.map deltaOf) ∨
        (pin = false ∧ ∃ a, pr.last = some a ∧
           pr.line.punches.getLast? = some (.opn a) ∧
           (∀ q ∈ pr.line.punches.dropLast, isClosedPunch q = true) ∧
           pr.times = pr.line.punches.dropLast.map deltaOf))) ∨
    (pr.isNew = true ∧ pin = true ∧ findLine p ls.projLines = none ∧
       pr = ⟨⟨p, "0", []⟩,
             (if ls.projLines.isEmpty then 1 else ls.projLines.length),
             none, true, []⟩) := by
  rw [parse_line.eq_def] at h
  split at h
  · rename_i jpl j pl hfl
    split at h
    · exact absurd h (by simp)
    · rename_i last hlast
      split at h
      · exact absurd h (by simp)
      · rename_i times hmap
        simp only [Except.ok.injEq] at h
        subst h
        left
        refine ⟨rfl, hfl, ?_⟩
        rcases lastFieldOf_ok hlast with ⟨hpin, hl⟩ | ⟨hpin, a, hl, hgl⟩
        · left
          subst hpin
          simp only [if_true] at hmap
          obtain ⟨hcl, hts⟩ := punchDeltas_ok hmap
          exact ⟨rfl, hl, hcl, hts⟩
        · right
          subst hpin
          simp only [Bool.false_eq_true, if_false] at hmap
          obtain ⟨hcl, hts⟩ := punchDeltas_ok hmap
          exact ⟨rfl, a, hl, hgl, hcl, hts⟩
  · rename_i hfl
    split at h
    · rename_i hpin
      simp only [Except.ok.injEq] at h
      subst h
      right
      exact ⟨rfl, hpin, hfl, rfl⟩
    · exact absurd h (by simp)

/-- Inversion of a `clock_out` call that wrote the file: the state was
clocked in, the open punch of the looked-up `lastProj` line is closed at
the computed out-time, the cached total is rewritten and the flag
cleared. -/
theorem clock_out_inv (ls : Lines) (pt : Option String) (now : Nat)
    (ls' : Lines) (out : List Msg)
    (h : clock_out ls pt now = .ok ⟨some ls', out⟩) :
    ∃ pr t last,
      ls.lastProj ≠ "" ∧
      (ls.clockedF == NO) = false ∧
      parse_line ls ls.lastProj false = .ok pr ∧
      outTimeOf now pt = .ok t ∧
      pr.last = some last ∧
      ls' = { ls with
                clockedF := NO
                projLines := ls.projLines.set pr.idx
                  { pr.line with
                      total := fnum ((pr.times ++ [(t : Int) - (last : Int)]).sum)
                      punches := pr.line.punches.dropLast ++ [Punch.closed last t] } } := by
  rw [clock_out.eq_def] at h
  split at h
  · exact absurd h (by simp)
  · rename_i fs finished proj hpf
    split at h
    · exact absurd h (by simp)
    · rename_i hfin
      split at h
      · exact absurd h (by simp)
      · rename_i pr hpl
        split at h
        · exact absurd h (by simp)
        · rename_i t hot
          split at h
          · exact absurd h (by simp)
          · rename_i last hlast
            simp only [Except.ok.injEq, OpResult.mk.injEq] at h
            obtain ⟨hw, hout⟩ := h
            have hfin' : finished = false := by
              cases hfb : finished
              · rfl
              · rw [hfb] at hfin; simp at hfin
            obtain ⟨hb, hres⟩ := parse_file_ok ls none finished proj hpf
            rcases hres with ⟨-, hs, hne⟩ | ⟨q, hq, -⟩
            · refine ⟨pr, t, last, hne, ?_, ?_, hot, hlast, ?_⟩
              · rw [← hb, hfin']
              · rw [← hs, ← hfin']
                exact hpl
              · cases hw
                rfl
            · exact absurd hq (by simp)

theorem openLastOf_ok {finished : Bool} {last : Option Nat} {r : Option Nat}
    (h : openLastOf finished last = .ok r) :
    (finished = true ∧ r = none) ∨
    (finished = false ∧ ∃ l, last = some l ∧ r = some l) := by
  cases finished with
  | true =>
    simp only [openLastOf, if_true, Except.ok.injEq] at h
    exact Or.inl ⟨rfl, h.symm⟩
  | false =>
    simp only [openLastOf, Bool.false_eq_true, if_false] at h
    cases last with
    | none => exact absurd h (by simp)
    | some l =>
      simp only [Except.ok.injEq] at h
      exact Or.inr ⟨rfl, l, rfl, h.symm⟩

/-- Inversion of a `switch_project` call that wrote the file. -/
theorem switch_inv (ls : Lines) (p0 : String) (now : Nat)
    (ls' : Lines) (out : List Msg)
    (h : switch_project ls p0 now = .ok ⟨some ls', out⟩) :
    ∃ p1 p2,
      ls.lastProj ≠ "" ∧
      parse_line ls ls.lastProj (ls.clockedF == NO) = .ok p1 ∧
      parse_line ls (strLower p0) true = .ok p2 ∧
      (((ls.clockedF == NO) = true ∧
          ls' = { ls with
                    lastProj := strLower p0
                    projLines :=
                      if p2.isNew then ls.projLines ++ [p2.line]
                      else ls.projLines.set p2.idx p2.line }) ∨
       (∃ l1, (ls.clockedF == NO) = false ∧ p1.last = some l1 ∧
          ls' = { ls with
                    lastProj := strLower p0
                    projLines :=
                      (if p2.isNew then
                        (ls.projLines.set p1.idx
                          { p1.line with
                              total := fnum ((p1.times ++ [(now : Int) - (l1 : Int)]).sum)
                              punches := p1.line.punches.dropLast ++ [Punch.closed l1 now] }) ++
                          [{ p2.line with punches := p2.line.punches ++ [Punch.opn now] }]
                      else
                        (ls.projLines.set p1.idx
                          { p1.line with
                              total := fnum ((p1.times ++ [(now : Int) - (l1 : Int)]).sum)
                              punches := p1.line.punches.dropLast ++ [Punch.closed l1 now] }).set p2.idx
                          { p2.line with punches := p2.line.punches ++ [Punch.opn now] }) })) := by
  rw [switch_project.eq_def] at h
  dsimp only at h
  split at h
  · exact absurd h (by simp)
  · rename_i fs finished last_project hpf
    split at h
    · exact absurd h (by simp)
    · rename_i p1 hp1
      split at h
      · exact absurd h (by simp)
      · rename_i p2 hp2
        split at h
        · exact absurd h (by simp)
        · rename_i hol
          simp only [Except.ok.injEq, OpResult.mk.injEq] at h
          obtain ⟨hw, hout⟩ := h
          obtain ⟨hb, hres⟩ := parse_file_ok ls none finished last_project hpf
          rcases hres with ⟨-, hs, hne⟩ | ⟨q, hq, -⟩
          · subst hs
            refine ⟨p1, p2, hne, by rw [← hb]; exact hp1, hp2, Or.inl ⟨?_, ?_⟩⟩
            · rcases openLastOf_ok hol with ⟨hfin, -⟩ | ⟨-, l, -, hr⟩
              · rw [← hb, hfin]
              · exact absurd hr (by simp)
            · cases hw
              split <;> rfl
          · exact absurd hq (by simp)
        · rename_i l1 hol
          simp only [Except.ok.injEq, OpResult.mk.injEq] at h
          obtain ⟨hw, hout⟩ := h
          obtain ⟨hb, hres⟩ := parse_file_ok ls none finished last_project hpf
          rcases hres with ⟨-, hs, hne⟩ | ⟨q, hq, -⟩
          · subst hs
            refine ⟨p1, p2, hne, by rw [← hb]; exact hp1, hp2,
              Or.inr ⟨l1, ?_, ?_, ?_⟩⟩
            · rcases openLastOf_ok hol with ⟨-, hr⟩ | ⟨hfin, l, -, -⟩
              · exact absurd hr (by simp)
              · rw [← hb, hfin]
            · rcases openLastOf_ok hol with ⟨-, hr⟩ | ⟨-, l, hl, hr⟩
              · exact absurd hr (by simp)
              · simp only [Option.some.injEq] at hr
                rw [hl, hr]
            · cases hw
              split <;> rfl
          · exact absurd hq (by simp)

/-- **C8, counterexample.**  The claim states that a duration of 8.5
hours (30600 seconds) renders as `8:30:00`; `fnum` does not zero-pad
its minute and second fields, so it renders `8:30:0`. -/
theorem C8_cex : ¬ (fnum (Int.ofNat 30600) = "8:30:00") := by decide

/-- **C8 (amended).**  For every non-negative duration of `s` seconds,
`fnum` renders the floor-based decomposition hours = `s / 3600`,
minutes = `(s % 3600) / 60`, seconds = `s % 60`, but *without* zero
padding (`H:M:S`, not `H:MM:SS`); in particular 8.5 hours renders as
`8:30:0`. -/
theorem C8_fnum_floor_unpadded :
    (∀ s : Nat, fnum (Int.ofNat s) =
      Nat.repr (s / 3600) ++ ":" ++ Nat.repr (s % 3600 / 60) ++ ":" ++
        Nat.repr (s % 60)) ∧
    fnum (Int.ofNat 30600) = "8:30:0" := by
  constructor
  · intro s
    have h60 : s % 3600 % 60 = s % 60 := Nat.mod_mod_of_dvd s (by norm_num)
    simp only [fnum, SEC_PER_HOUR, SEC_PER_MIN]
    rw [show (3600 : Int) = Int.ofNat 3600 from rfl,
        show (60 : Int) = Int.ofNat 60 from rfl,
        fdiv_ofNat, emod_ofNat, fdiv_ofNat, emod_ofNat, h60]
    rfl
  · rfl

/-- **C2 (code bug).**  `clock_out` with a backdated `hour:minute`
argument evaluates `previous_time.year` on a `str` (src line 239) and
raises `AttributeError` unconditionally — before the documented
`InvalidClockOutTime` comparison and before any write.  Here the open
punch began at time 100 and the backdated time is well-formed, yet the
call raises instead of closing the punch. -/
theorem C2_backdated_clock_out_crashes :
    clock_out exIn (some "17:30") 999 = .error Err.attrErr := rfl

/-- `onlyOpenAt l j` says: position `j` holds a line with an open last
punch and every other position holds a closed line. -/
theorem onlyOpenAt_iff {l : List ProjLine} {j : Nat} :
    onlyOpenAt l j = true ↔
      ((∃ pl, l[j]? = some pl ∧ openAt pl = true) ∧
       ∀ k q, l[k]? = some q → k ≠ j → openAt q = false) := by
  induction l generalizing j with
  | nil =>
    simp only [onlyOpenAt]
    constructor
    · intro h
      cases h
    · rintro ⟨⟨pl, hpl, -⟩, -⟩
      simp at hpl
  | cons hd tl ih =>
    cases j with
    | zero =>
      simp only [onlyOpenAt, Bool.and_eq_true, List.all_eq_true]
      constructor
      · rintro ⟨h1, h2⟩
        refine ⟨⟨hd, by simp, h1⟩, ?_⟩
        intro k q hq hk
        cases k with
        | zero => exact absurd rfl hk
        | succ k' =>
          have hm := List.getElem?_mem (show tl[k']? = some q by simpa using hq)
          simpa using h2 q hm
      · rintro ⟨⟨pl, hpl, hop⟩, h2⟩
        simp only [List.getElem?_cons_zero, Option.some.injEq] at hpl
        subst hpl
        refine ⟨hop, ?_⟩
        intro q hq
        obtain ⟨k', hk'⟩ := List.getElem?_of_mem hq
        have hz := h2 (k' + 1) q (by simpa using hk') (by omega)
        simpa using hz
    | succ j' =>
      simp only [onlyOpenAt, Bool.and_eq_true, ih]
      constructor
      · rintro ⟨h1, ⟨pl, hpl, hop⟩, h2⟩
        refine ⟨⟨pl, by simpa using hpl, hop⟩, ?_⟩
        intro k q hq hk
        cases k with
        | zero =>
          simp only [List.getElem?_cons_zero, Option.some.injEq] at hq
          subst hq
          simpa using h1
        | succ k' => exact h2 k' q (by simpa using hq) (by omega)
      · rintro ⟨⟨pl, hpl, hop⟩, h2⟩
        refine ⟨?_, ⟨pl, by simpa using hpl, hop⟩, ?_⟩
        · have hz := h2 0 hd (by simp) (by omega)
          simpa using hz
        · intro k q hq hk
          exact h2 (k + 1) q (by simpa using hq) (by omega)

/-- Unpacking the invariant of a clocked-in ledger. -/
theorem InvS_yes (ls : Lines) (hinv : InvS ls) (hin : ls.clockedF = YES) :
    ∃ j pl, findLine ls.lastProj ls.projLines = some (j, pl) ∧
      onlyOpenAt ls.projLines j = true ∧
      (∀ q ∈ ls.projLines, nameWF q.name = true ∧ punchesWF q = true) ∧
      nameWF ls.lastProj = true := by
  unfold InvS linesWF at hinv
  rw [hin] at hinv
  simp only [Bool.and_eq_true, Bool.or_eq_true, beq_iff_eq, List.all_eq_true,
    show (YES == NO) = false from rfl, Bool.false_eq_true, if_false] at hinv
  obtain ⟨⟨⟨-, hn⟩, hall⟩, hstate⟩ := hinv
  split at hstate
  · rename_i jpl heq
    exact ⟨jpl.1, jpl.2, heq, hstate,
      fun q hq => by simpa [Bool.and_eq_true] using hall q hq, hn⟩
  · cases hstate

/-- Unpacking the invariant of a clocked-out ledger. -/
theorem InvS_no (ls : Lines) (hinv : InvS ls) (hno : ls.clockedF = NO) :
    (∀ q ∈ ls.projLines,
       nameWF q.name = true ∧ punchesWF q = true ∧ openAt q = false) ∧
    nameWF ls.lastProj = true := by
  unfold InvS linesWF at hinv
  rw [hno] at hinv
  simp only [Bool.and_eq_true, Bool.or_eq_true, beq_iff_eq, List.all_eq_true,
    beq_self_eq_true, if_true] at hinv
  obtain ⟨⟨⟨-, hn⟩, hall⟩, hstate⟩ := hinv
  refine ⟨?_, hn⟩
  intro q hq
  obtain ⟨h1, h2⟩ := by simpa [Bool.and_eq_true] using hall q hq
  have h3 := hstate q hq
  simp only [Bool.not_eq_true'] at h3
  exact ⟨h1, h2, h3⟩

/-- Forward evaluation of `parse_line` with `project_in = False` on a
found line whose last punch is open and whose other punches are closed. -/
theorem parse_line_open_ok (ls : Lines) (p : String) (j : Nat) (pl : ProjLine)
    (hfl : findLine p ls.projLines = some (j, pl))
    (hopen : openAt pl = true) (hwf : punchesWF pl = true) :
    ∃ a, pl.punches.getLast? = some (.opn a) ∧
      parse_line ls p false =
        .ok ⟨pl, j, some a, false, pl.punches.dropLast.map deltaOf⟩ := by
  unfold openAt at hopen
  split at hopen
  · rename_i a hgl
    refine ⟨a, hgl, ?_⟩
    rw [parse_line.eq_def, hfl]
    have hl : lastFieldOf false pl.punches = .ok (some a) := by
      simp [lastFieldOf, hgl]
    have hd : punchDeltas pl.punches.dropLast =
        .ok (pl.punches.dropLast.map deltaOf) := by
      apply punchDeltas_closed
      intro q hq
      unfold punchesWF at hwf
      rw [List.all_eq_true] at hwf
      exact hwf q hq
    simp [hl, hd]
  · cases hopen

/-- Forward evaluation of `parse_line` with `project_in = True` on a
found, fully closed line. -/
theorem parse_line_closed_ok (ls : Lines) (p : String) (j : Nat) (pl : ProjLine)
    (hfl : findLine p ls.projLines = some (j, pl))
    (hcl : ∀ q ∈ pl.punches, isClosedPunch q = true) :
    parse_line ls p true = .ok ⟨pl, j, none, false, pl.punches.map deltaOf⟩ := by
  rw [parse_line.eq_def, hfl]
  have hd : punchDeltas pl.punches = .ok (pl.punches.map deltaOf) :=
    punchDeltas_closed hcl
  simp [lastFieldOf, hd]

/-- Forward evaluation of `parse_line` with `project_in = True` on a
found line holding the open punch: the duration loop hits the open punch
field, whose `split(" -> ")` yields a single value, and unpacking raises. -/
theorem parse_line_true_open_err (ls : Lines) (p : String) (j : Nat)
    (pl : ProjLine) (hfl : findLine p ls.projLines = some (j, pl))
    (hopen : openAt pl = true) (hwf : punchesWF pl = true) :
    parse_line ls p true = .error Err.unpackErr := by
  unfold openAt at hopen
  split at hopen
  · rename_i a hgl
    rw [parse_line.eq_def, hfl]
    have hdec := punches_decomp hgl
    have hd : punchDeltas pl.punches = .error Err.unpackErr := by
      rw [hdec]
      apply punchDeltas_open
      intro q hq
      unfold punchesWF at hwf
      rw [List.all_eq_true] at hwf
      exact hwf q hq
    simp [lastFieldOf, hd]
  · cases hopen

/-- **C10.**  Switching to the current project while clocked in raises an
unstructured `ValueError` (the target's line is parsed as if fully
closed, and its trailing open-punch field cannot be split into an in/out
pair), before any write: the ledger file is unmodified, and there is no
no-op or close-and-reopen behaviour. -/
theorem C10_switch_to_current (ls : Lines) (q : String) (now : Nat)
    (hinv : InvS ls) (hin : ls.clockedF = YES) (hl : ls.lastProj ≠ "")
    (hq : strLower q = ls.lastProj) :
    switch_project ls q now = .error Err.unpackErr := by
  obtain ⟨j, pl, hfl, honly, hwf, -⟩ := InvS_yes ls hinv hin
  obtain ⟨hget, -, -⟩ := findLine_some _ _ _ _ hfl
  have hop : openAt pl = true := by
    obtain ⟨⟨pl2, hpl2, hop2⟩, -⟩ := onlyOpenAt_iff.mp honly
    rw [hget] at hpl2
    injection hpl2 with h2
    rw [← h2] at hop2
    exact hop2
  have hwfpl : punchesWF pl = true := (hwf pl (List.getElem?_mem hget)).2
  obtain ⟨a, hgl, hp1⟩ := parse_line_open_ok ls ls.lastProj j pl hfl hop hwfpl
  have hp2 : parse_line ls (strLower q) true = .error Err.unpackErr := by
    rw [hq]
    exact parse_line_true_open_err ls ls.lastProj j pl hfl hop hwfpl
  have hpf : parse_file ls none = .ok ((ls.clockedF == NO), ls.lastProj) := by
    simp [parse_file, beq_eq_false_iff_ne.mpr hl]
  have hfin : (ls.clockedF == NO) = false := by
    rw [hin]
    rfl
  rw [switch_project.eq_def]
  dsimp only
  rw [hpf]
  dsimp only
  rw [hfin, hp1]
  dsimp only
  rw [hp2]

/-- **C10, witness.** -/
theorem C10_witness : switch_project exIn "alpha" 200 = .error Err.unpackErr :=
  C10_switch_to_current exIn "alpha" 200 (by decide) rfl (by decide) (by decide)

/-- **C4, counterexample.**  The claim says the `AlreadyClockedIn`
failure identifies the currently open project.  Two ledgers clocked in
on different projects (`alpha` and `beta`) produce *identical* results —
the fixed message names no project — so the failure cannot identify the
open project. -/
theorem C4_cex :
    clock_in exIn none none 5 = clock_in exInBeta none none 5 ∧
    clock_in exIn none none 5 = .ok ⟨none, [.failText ALREADY_IN_MSG]⟩ ∧
    exIn.lastProj = "alpha" ∧ exInBeta.lastProj = "beta" :=
  ⟨rfl, rfl, rfl, rfl⟩

/-- **C4 (amended).**  For every ledger in state IN (given a project
argument, or a non-empty `last_project` for the no-argument form),
`clock_in` prints the fixed `ALREADY CLOCKED IN` message — which does
not name the open project — and returns without writing: no punch is
added, no header field changes, nothing is persisted. -/
theorem C4_clock_in_while_in (ls : Lines) (p pt : Option String) (now : Nat)
    (hin : ls.clockedF ≠ NO) (hp : p ≠ none ∨ ls.lastProj ≠ "") :
    clock_in ls p pt now = .ok ⟨none, [.failText ALREADY_IN_MSG]⟩ := by
  have hin' : (ls.clockedF == NO) = false := beq_eq_false_iff_ne.mpr hin
  rw [clock_in.eq_def]
  cases p with
  | none =>
    have hl : ls.lastProj ≠ "" := hp.resolve_left (fun hh => hh rfl)
    simp [parse_file, beq_eq_false_iff_ne.mpr hl, hin']
  | some s =>
    simp [parse_file, hin']

/-- **C4, witness.** -/
theorem C4_witness :
    clock_in exIn (some "beta") none 5 = .ok ⟨none, [.failText ALREADY_IN_MSG]⟩ :=
  C4_clock_in_while_in exIn (some "beta") none 5 (by decide) (Or.inl (by simp))

/-- **C5, counterexample.**  A fresh ledger is in state OUT (`clocked_in
= NO`), yet `clock_out` on it raises the `ValueError` of `parse_file`
("Must specify project if no history"), not the `AlreadyClockedOut`
failure: the claim does not hold for every OUT ledger. -/
theorem C5_cex :
    (initLedger 0).clockedF = NO ∧ (initLedger 0).projLines = [] ∧
    clock_out (initLedger 0) none 5 = .error Err.noHistory :=
  ⟨rfl, rfl, rfl⟩

/-- **C5 (amended).**  For every ledger in state OUT whose
`last_project` is non-empty, `clock_out` prints the fixed `ALREAD
CLOCKED OUT` message and returns without writing: no punch is closed, no
header field changes, nothing is persisted. -/
theorem C5_clock_out_while_out (ls : Lines) (pt : Option String) (now : Nat)
    (hout : ls.clockedF = NO) (hl : ls.lastProj ≠ "") :
    clock_out ls pt now = .ok ⟨none, [.failText ALREADY_OUT_MSG]⟩ := by
  rw [clock_out.eq_def]
  simp [parse_file, beq_eq_false_iff_ne.mpr hl, hout]

/-- **C5, witness.** -/
theorem C5_witness :
    clock_out exOut none 5 = .ok ⟨none, [.failText ALREADY_OUT_MSG]⟩ :=
  C5_clock_out_while_out exOut none 5 rfl (by decide)

/-- **C7, counterexample.**  The lookup is a *prefix* match on the whole
line text, not an exact-key lookup: querying `alpha` against a ledger
whose only project is `alphabet` returns `alphabet`'s record with
`created = false`, although no project named exactly `alpha` exists. -/
theorem C7_cex :
    parse_line exAlphabet "alpha" true =
      .ok ⟨⟨"alphabet", "0", [Punch.closed 1 2]⟩, 0, none, false, [1]⟩ ∧
    (∀ pl ∈ exAlphabet.projLines, pl.name ≠ "alpha") := by
  constructor
  · rfl
  · decide

/-- **C7 (amended).**  The find-or-create lookup returns the *first*
line whose joined text has the queried (normalized) name as a character
prefix — exact-key matches are a special case, since every line's text
starts with its own name; a fresh record `[name, "0"]` is produced if
and only if no line text extends the name, and `clock_in` then appends
the new record after all existing projects, preserving insertion
order. -/
theorem C7_find_or_create :
    (∀ ls p pin pr, parse_line ls p pin = .ok pr →
       (pr.isNew = false →
          ls.projLines[pr.idx]? = some pr.line ∧ lineMatches p pr.line = true ∧
          ∀ k, k < pr.idx → ∀ q, ls.projLines[k]? = some q →
            lineMatches p q = false) ∧
       (pr.isNew = true →
          (∀ pl ∈ ls.projLines, lineMatches p pl = false) ∧
          pr.line = ⟨p, "0", []⟩)) ∧
    (∀ pl : ProjLine, lineMatches pl.name pl = true) ∧
    (∀ ls p pt now ls' out, clock_in ls (some p) pt now = .ok ⟨some ls', out⟩ →
       (∀ pl ∈ ls.projLines, lineMatches (strLower p) pl = false) →
       ∃ t, ls'.projLines =
              ls.projLines ++ [⟨strLower p, "0", [Punch.opn t]⟩]) := by
  refine ⟨?_, lineMatches_self, ?_⟩
  · intro ls p pin pr h
    rcases parse_line_inv ls p pin pr h with ⟨hnew, hfl, -⟩ | ⟨hnew, -, hfl, hpr⟩
    · constructor
      · intro _
        exact findLine_some p ls.projLines pr.idx pr.line hfl
      · intro hh
        rw [hnew] at hh
        cases hh
    · constructor
      · intro hh
        rw [hnew] at hh
        cases hh
      · intro _
        refine ⟨(findLine_eq_none p ls.projLines).mp hfl, ?_⟩
        rw [hpr]
  · intro ls p pt now ls' out h hnone
    obtain ⟨proj, pr, t, hpf, -, hpl, hstate⟩ :=
      clock_in_inv ls (some p) pt now ls' out h
    obtain ⟨-, hres⟩ := parse_file_ok ls (some p) true proj hpf
    rcases hres with ⟨hcon, -, -⟩ | ⟨q2, hq2, hs⟩
    · cases hcon
    · have hproj : proj = strLower p := by
        injection hq2 with hq3
        rw [hs, ← hq3]
      rcases parse_line_inv ls proj true pr hpl with ⟨-, hfl, -⟩ | ⟨-, -, -, hpr⟩
      · rw [hproj, (findLine_eq_none _ _).mpr hnone] at hfl
        cases hfl
      · refine ⟨t, ?_⟩
        subst hstate
        simp only [hpr, if_true]
        rw [hproj]
        rfl

/-- **C7, witness.** -/
theorem C7_witness :
    exOut.projLines[0]? = some ⟨"alpha", "0:1:40", [Punch.closed 100 200]⟩ ∧
    lineMatches "alpha" ⟨"alpha", "0:1:40", [Punch.closed 100 200]⟩ = true := by
  have h := (C7_find_or_create.1 exOut "alpha" true
    ⟨⟨"alpha", "0:1:40", [Punch.closed 100 200]⟩, 0, none, false, [100]⟩ rfl).1 rfl
  exact ⟨h.1, h.2.1⟩

/-- **C9.**  The derived queries — status (`check_time`), project report
(`report_project`, even when asked about a project that does not exist),
and `list_projects` — are read-only: whenever they succeed they write
nothing, and on their failure paths they raise before any write; in the
model, their `written` field is always `none`. -/
theorem C9_queries_read_only :
    (∀ ls now r, check_time ls now = .ok r → r.written = none) ∧
    (∀ ls p now r, report_project ls p now = .ok r → r.written = none) ∧
    (∀ ls now r, list_projects ls now = .ok r → r.written = none) := by
  refine ⟨?_, ?_, ?_⟩
  · intro ls now r h
    rw [check_time.eq_def] at h
    dsimp only at h
    iterate 6 all_goals (try split at h)
    all_goals first
      | (simp only [Except.ok.injEq] at h; subst h; rfl)
      | exact Except.noConfusion h
  · intro ls p now r h
    rw [report_project.eq_def] at h
    dsimp only at h
    iterate 8 all_goals (try split at h)
    all_goals first
      | (simp only [Except.ok.injEq] at h; subst h; rfl)
      | exact Except.noConfusion h
  · intro ls now r h
    rw [list_projects.eq_def] at h
    dsimp only at h
    iterate 6 all_goals (try split at h)
    all_goals first
      | (simp only [Except.ok.injEq] at h; subst h; rfl)
      | exact Except.noConfusion h

/-- Forward evaluation of `clock_in` on a single-project clocked-out
ledger whose punches are all closed: the open punch field is appended
and the header flags set. -/
theorem clock_in_on_single (st p tot : String) (punches : List Punch) (a : Nat)
    (hp : strLower p = p)
    (hcl : ∀ q ∈ punches, isClosedPunch q = true) :
    clock_in ⟨st, p, NO, [⟨p, tot, punches⟩]⟩ (some p) none a =
      .ok ⟨some ⟨st, p, YES, [⟨p, tot, punches ++ [Punch.opn a]⟩]⟩,
           [Msg.clockInProject p, Msg.inAt (Nat.repr a),
            Msg.projTotal p (fnum (punches.map deltaOf).sum)]⟩ := by
  have hfl : findLine p [(⟨p, tot, punches⟩ : ProjLine)] =
      some (0, ⟨p, tot, punches⟩) := by
    have hm := lineMatches_self ⟨p, tot, punches⟩
    simp only [findLine, hm, if_true]
  have hpl := parse_line_closed_ok ⟨st, p, NO, [⟨p, tot, punches⟩]⟩ p 0
    ⟨p, tot, punches⟩ hfl hcl
  rw [clock_in.eq_def]
  have hpf : parse_file ⟨st, p, NO, [⟨p, tot, punches⟩]⟩ (some p) =
      .ok (true, p) := by
    simp [parse_file, hp]
  rw [hpf]
  dsimp only
  rw [hpl]
  dsimp only [inTimeOf]
  simp

/-- Forward evaluation of `clock_out` on a single-project clocked-in
ledger: the open punch is closed at `b` and the cached total rewritten. -/
theorem clock_out_on_single (st p tot : String) (pun cl : List Punch) (a b : Nat)
    (hne : p ≠ "") (hdecomp : pun = cl ++ [Punch.opn a])
    (hcl : ∀ q ∈ cl, isClosedPunch q = true) :
    clock_out ⟨st, p, YES, [⟨p, tot, pun⟩]⟩ none b =
      .ok ⟨some ⟨st, p, NO,
            [⟨p, fnum ((cl.map deltaOf ++ [(b : Int) - (a : Int)]).sum),
              cl ++ [Punch.closed a b]⟩]⟩,
           [Msg.clockOutProject p, Msg.inOutAt (Nat.repr a) (Nat.repr b),
            Msg.totalPunch p (fnum ((cl.map deltaOf ++ [(b : Int) - (a : Int)]).sum))
              (fnum ((b : Int) - (a : Int)))]⟩ := by
  subst hdecomp
  have hfl : findLine p [(⟨p, tot, cl ++ [Punch.opn a]⟩ : ProjLine)] =
      some (0, ⟨p, tot, cl ++ [Punch.opn a]⟩) := by
    have hm := lineMatches_self ⟨p, tot, cl ++ [Punch.opn a]⟩
    simp only [findLine, hm, if_true]
  have hop : openAt ⟨p, tot, cl ++ [Punch.opn a]⟩ = true := by
    simp [openAt, List.getLast?_concat]
  have hwf : punchesWF ⟨p, tot, cl ++ [Punch.opn a]⟩ = true := by
    simp only [punchesWF, List.dropLast_concat, List.all_eq_true]
    exact hcl
  obtain ⟨a', hgl, hpl⟩ := parse_line_open_ok ⟨st, p, YES, [⟨p, tot, cl ++ [Punch.opn a]⟩]⟩
    p 0 ⟨p, tot, cl ++ [Punch.opn a]⟩ hfl hop hwf
  have ha : a' = a := by
    rw [List.getLast?_concat] at hgl
    injection hgl with hgl2
    injection hgl2 with h3
    exact h3.symm
  rw [ha] at hpl
  rw [clock_out.eq_def]
  have hpf : parse_file ⟨st, p, YES, [⟨p, tot, cl ++ [Punch.opn a]⟩]⟩ none =
      .ok (false, p) := by
    simp [parse_file, beq_eq_false_iff_ne.mpr hne,
      show (YES == NO) = false from rfl]
  rw [hpf]
  dsimp only
  rw [hpl]
  dsimp only [outTimeOf]
  simp [List.dropLast_concat]

/-- Running alternating in/out pairs on a single-project clocked-out
ledger accumulates exactly the listed closed punches, and each
`clock_out` stores the recomputed exact total. -/
theorem runInOut_spec (p st : String) (hp : strLower p = p) (hne : p ≠ "") :
    ∀ (ts ps : List (Nat × Nat)) (tot : String),
      runInOut p ts ⟨st, p, NO, [⟨p, tot, ps.map closedOf⟩]⟩ =
        some ⟨st, p, NO,
          [⟨p, (if ts.isEmpty then tot else fnum (sumD (ps ++ ts))),
            ((ps ++ ts).map closedOf)⟩]⟩ := by
  intro ts
  induction ts with
  | nil =>
    intro ps tot
    simp [runInOut]
  | cons hd rest ih =>
    intro ps tot
    obtain ⟨a, b⟩ := hd
    rw [runInOut.eq_def]
    dsimp only
    have hcl : ∀ q ∈ ps.map closedOf, isClosedPunch q = true := by
      intro q hq
      obtain ⟨ab, -, rfl⟩ := List.mem_map.mp hq
      rfl
    rw [clock_in_on_single st p tot (ps.map closedOf) a hp hcl]
    dsimp only
    rw [clock_out_on_single st p tot (ps.map closedOf ++ [Punch.opn a])
      (ps.map closedOf) a b hne rfl hcl]
    dsimp only
    have e1 : ps.map closedOf ++ [Punch.closed a b] =
        (ps ++ [(a, b)]).map closedOf := by
      simp [closedOf]
    have e2 : fnum (((ps.map closedOf).map deltaOf ++
          [(b : Int) - (a : Int)]).sum) = fnum (sumD (ps ++ [(a, b)])) := by
      simp only [sumD, List.map_map, List.map_append, List.sum_append]
      rfl
    rw [e1, e2, ih (ps ++ [(a, b)]) (fnum (sumD (ps ++ [(a, b)])))]
    cases rest with
    | nil => simp
    | cons hd2 rest2 => simp [List.append_assoc]

/-- Forward evaluation of the very first `clock_in` on a ledger with no
projects: the fresh line `[p, "0"]` is created and appended with its
open punch field. -/
theorem clock_in_fresh (st lp p : String) (a : Nat) (hp : strLower p = p) :
    clock_in ⟨st, lp, NO, []⟩ (some p) none a =
      .ok ⟨some ⟨st, p, YES, [⟨p, "0", [Punch.opn a]⟩]⟩,
           [Msg.createdProject p, Msg.clockInProject p, Msg.inAt (Nat.repr a),
            Msg.projTotal p (fnum 0)]⟩ := by
  rw [clock_in.eq_def]
  have hpf : parse_file ⟨st, lp, NO, []⟩ (some p) = .ok (true, p) := by
    simp [parse_file, hp]
  rw [hpf]
  dsimp only
  rw [show parse_line ⟨st, lp, NO, []⟩ p true =
      .ok ⟨⟨p, "0", []⟩, 1, none, true, []⟩ from rfl]
  dsimp only [inTimeOf]
  simp

/-- **C6.**  For every correctly alternating `ClockIn p`/`ClockOut`
sequence producing the complete punches `(a, b) :: ts` on the project
`p` (normalized, non-empty), the run succeeds, the project's punch list
is exactly those pairs, and the stored total computed by the final
`clock_out` is `fnum` of exactly the sum of each punch's
`time_out - time_in`; the per-punch durations the code re-parses from
that final state sum to the same value. -/
theorem C6_alternating_total (p : String) (ts : List (Nat × Nat)) (n0 a b : Nat)
    (hp : strLower p = p) (hne : p ≠ "") :
    runInOut p ((a, b) :: ts) (initLedger n0) =
      some ⟨Nat.repr n0, p, NO,
        [⟨p, fnum (sumD ((a, b) :: ts)), ((a, b) :: ts).map closedOf⟩]⟩ ∧
    ((((a, b) :: ts).map closedOf).map deltaOf).sum = sumD ((a, b) :: ts) := by
  constructor
  · rw [runInOut.eq_def]
    dsimp only
    rw [show initLedger n0 = ⟨Nat.repr n0, "", NO, []⟩ from rfl,
      clock_in_fresh (Nat.repr n0) "" p a hp]
    dsimp only
    rw [clock_out_on_single (Nat.repr n0) p "0" [Punch.opn a] [] a b hne rfl
      (by intro q hq; cases hq)]
    dsimp only
    have e2 : fnum ((([] : List Punch).map deltaOf ++
        [(b : Int) - (a : Int)]).sum) = fnum (sumD [(a, b)]) := by
      simp [sumD]
    rw [show ([] : List Punch) ++ [Punch.closed a b] = [(a, b)].map closedOf from rfl,
      e2, runInOut_spec p (Nat.repr n0) hp hne ts [(a, b)] (fnum (sumD [(a, b)]))]
    cases ts with
    | nil => simp
    | cons hd2 rest2 => simp [sumD]
  · simp only [sumD, List.map_map]
    rfl

/-- **C6, witness.** -/
theorem C6_witness :
    runInOut "alpha" [(100, 200), (300, 450)] (initLedger 0) =
      some ⟨Nat.repr 0, "alpha", NO,
        [⟨"alpha", fnum (sumD [(100, 200), (300, 450)]),
          [(100, 200), (300, 450)].map closedOf⟩]⟩ :=
  (C6_alternating_total "alpha" [(300, 450)] 0 100 200 (by decide) (by decide)).1

theorem punchesText_append (l : List Punch) (x : Punch) :
    punchesText (l ++ [x]) = punchesText l ++ (PUNCH_SEP ++ renderPunch x) := by
  induction l with
  | nil => simp [punchesText]
  | cons hd tl ih => simp [punchesText, ih, String.append_assoc]

/-- Appending a punch field only extends the line text. -/
theorem lineText_snoc (pl : ProjLine) (x : Punch) :
    lineText { pl with punches := pl.punches ++ [x] } =
      lineText pl ++ (PUNCH_SEP ++ renderPunch x) := by
  simp [lineText, punchesText_append, String.append_assoc]

/-- A line that matches still matches after a punch field is appended. -/
theorem lineMatches_snoc {q : String} {pl : ProjLine} (x : Punch)
    (h : lineMatches q pl = true) :
    lineMatches q { pl with punches := pl.punches ++ [x] } = true := by
  simp only [lineMatches, List.isPrefixOf_iff_prefix] at h ⊢
  rw [lineText_snoc, String.data_append]
  exact h.trans (List.prefix_append _ _)

/-- Cutting a prefix at a separator: if `c` occurs in `X` but not in
`q`, then `q` is a prefix of `X ++ r` exactly when it is a prefix
of `X`. -/
theorem prefix_append_iff_of_nomem {q X r : List Char} {c : Char}
    (hq : c ∉ q) (hX : c ∈ X) : q <+: X ++ r ↔ q <+: X := by
  constructor
  · intro h
    by_cases hlen : q.length ≤ X.length
    · rw [List.prefix_iff_eq_take] at h ⊢
      rw [h, List.take_append_eq_append_take]
      have h0 : q.length - X.length = 0 := by omega
      rw [h0]
      simp
    · exfalso
      obtain ⟨s, hs⟩ := h
      have h2 : (q ++ s).take X.length = X := by
        rw [hs]
        exact List.take_left X r
      rw [List.take_append_eq_append_take] at h2
      have h0 : X.length - q.length = 0 := by omega
      rw [h0, List.take_zero, List.append_nil] at h2
      have hpre : X <+: q := by
        rw [← h2]
        exact List.take_prefix _ _
      exact hq (hpre.subset hX)
  · intro h
    exact h.trans (List.prefix_append X r)

/-- For a `'|'`-free query, whether a line matches is decided by the
name field alone: it is a prefix test against `name ++ " | "`. -/
theorem matchChar (q : String) (hq : nameWF q = true) (pl : ProjLine) :
    lineMatches q pl = q.data.isPrefixOf (pl.name ++ PUNCH_SEP).data := by
  have hnm : '|' ∉ q.data := by
    simp only [nameWF, Bool.not_eq_true'] at hq
    simpa using hq
  have hmem : '|' ∈ (pl.name ++ PUNCH_SEP).data := by
    rw [String.data_append]
    apply List.mem_append_right
    decide
  have key : q.data <+: (lineText pl).data ↔
      q.data <+: (pl.name ++ PUNCH_SEP).data := by
    have htext : (lineText pl).data =
        (pl.name ++ PUNCH_SEP).data ++ (pl.total ++ punchesText pl.punches).data := by
      simp [lineText, String.append_assoc]
    rw [htext]
    exact prefix_append_iff_of_nomem hnm hmem
  simp only [lineMatches]
  rw [Bool.eq_iff_iff]
  simp only [List.isPrefixOf_iff_prefix]
  exact key

/-- For a `'|'`-free query, lines with equal names have equal match
status. -/
theorem lineMatches_name_eq (q : String) (hq : nameWF q = true)
    {pl pl' : ProjLine} (hn : pl.name = pl'.name) :
    lineMatches q pl = lineMatches q pl' := by
  rw [matchChar q hq pl, matchChar q hq pl', hn]

/-- `findLine` after `set`: if the replacement has the same match status
as the replaced line, the search finds the same index, returning the
replacement when that index is the found one. -/
theorem findLine_set_congr (q : String) (l : List ProjLine) (i : Nat)
    (x : ProjLine)
    (hst : ∀ pl', l[i]? = some pl' → lineMatches q x = lineMatches q pl') :
    findLine q (l.set i x) =
      (findLine q l).map (fun jp => (jp.1, if jp.1 = i then x else jp.2)) := by
  induction l generalizing i with
  | nil => simp [findLine]
  | cons hd tl ih =>
    cases i with
    | zero =>
      have hm := hst hd (by simp)
      rw [List.set_cons_zero]
      cases h : lineMatches q hd with
      | true =>
        simp [findLine, h, hm.trans h]
      | false =>
        have hx : lineMatches q x = false := hm.trans h
        simp only [findLine, h, hx, Bool.false_eq_true, if_false]
        cases hf : findLine q tl with
        | none => simp
        | some jp => simp
    | succ i' =>
      rw [List.set_cons_succ]
      cases h : lineMatches q hd with
      | true =>
        simp [findLine, h]
      | false =>
        simp only [findLine, h, Bool.false_eq_true, if_false,
          ih i' (fun pl' hpl' => hst pl' (by simpa using hpl'))]
        cases hf : findLine q tl with
        | none => simp
        | some jp => simp

/-- `findLine` over an append when the first part has no match. -/
theorem findLine_append_none (q : String) (l : List ProjLine) (x : ProjLine)
    (h : findLine q l = none) :
    findLine q (l ++ [x]) =
      if lineMatches q x then some (l.length, x) else none := by
  induction l with
  | nil => simp [findLine]
  | cons hd tl ih =>
    rw [findLine] at h
    split at h
    · exact absurd h (by simp)
    · rename_i hm
      have htl : findLine q tl = none := by
        cases hf : findLine q tl with
        | none => rfl
        | some jp => rw [hf] at h; simp at h
      rw [List.cons_append, findLine, if_neg hm, ih htl]
      cases hx : lineMatches q x with
      | true => simp
      | false => simp

/-- A closed clocked-out ledger has `countOpen = 0`; `onlyOpenAt` means
`countOpen = 1`. -/
theorem countOpen_of_onlyOpenAt {l : List ProjLine} {j : Nat}
    (h : onlyOpenAt l j = true) : (l.filter openAt).length = 1 := by
  induction l generalizing j with
  | nil => cases h
  | cons hd tl ih =>
    cases j with
    | zero =>
      simp only [onlyOpenAt, Bool.and_eq_true, List.all_eq_true] at h
      obtain ⟨h1, h2⟩ := h
      have hf : tl.filter openAt = [] := by
        rw [List.filter_eq_nil_iff]
        intro a ha
        simpa using h2 a ha
      simp [List.filter, h1, hf]
    | succ j' =>
      simp only [onlyOpenAt, Bool.and_eq_true] at h
      obtain ⟨h1, h2⟩ := h
      simp only [Bool.not_eq_true'] at h1
      simp [List.filter, h1, ih h2]

/-- Building the ledger invariant from its components. -/
theorem linesWF_intro (ls : Lines)
    (hflag : ls.clockedF = YES ∨ ls.clockedF = NO)
    (hn : nameWF ls.lastProj = true)
    (hall : ∀ pl ∈ ls.projLines, nameWF pl.name = true ∧ punchesWF pl = true)
    (hstate :
      (ls.clockedF = NO ∧ ∀ pl ∈ ls.projLines, openAt pl = false) ∨
      (ls.clockedF = YES ∧ ∃ j pl,
        findLine ls.lastProj ls.projLines = some (j, pl) ∧
        onlyOpenAt ls.projLines j = true)) :
    InvS ls := by
  unfold InvS linesWF
  simp only [Bool.and_eq_true, Bool.or_eq_true, beq_iff_eq, List.all_eq_true]
  refine ⟨⟨⟨hflag, hn⟩, ?_⟩, ?_⟩
  · intro pl hpl
    obtain ⟨h1, h2⟩ := hall pl hpl
    simp [h1, h2]
  · rcases hstate with ⟨hno, hcl⟩ | ⟨hyes, j, pl, hfl, ho⟩
    · rw [hno]
      rw [if_pos rfl]
      simp only [List.all_eq_true]
      intro q hq
      simp [hcl q hq]
    · rw [hyes]
      rw [if_neg (show ¬ (YES = NO) from by decide)]
      rw [hfl]
      exact ho

/-- The invariant pins the clocked-in flag to `YES` or `NO`. -/
theorem InvS_flag (ls : Lines) (hinv : InvS ls) :
    ls.clockedF = YES ∨ ls.clockedF = NO := by
  unfold InvS linesWF at hinv
  simp only [Bool.and_eq_true, Bool.or_eq_true, beq_iff_eq] at hinv
  exact hinv.1.1.1

/-- `clock_in` preserves the invariant when its project argument is
separator-free after lower-casing. -/
theorem clock_in_preserves (ls : Lines) (p pt : Option String) (now : Nat)
    (ls' : Lines) (out : List Msg) (hinv : InvS ls) (harg : optArgWF p)
    (h : clock_in ls p pt now = .ok ⟨some ls', out⟩) : InvS ls' := by
  obtain ⟨proj, pr, t, hpf, hfin, hpl, hstate⟩ := clock_in_inv ls p pt now ls' out h
  have hno : ls.clockedF = NO := by simpa using hfin
  obtain ⟨hallc, hnlast⟩ := InvS_no ls hinv hno
  obtain ⟨-, hres⟩ := parse_file_ok ls p true proj hpf
  have hproj : nameWF proj = true := by
    rcases hres with ⟨-, hs, -⟩ | ⟨q2, hq2, hs⟩
    · rw [hs]; exact hnlast
    · rw [hq2] at harg
      rw [hs]
      exact harg
  subst hstate
  rcases parse_line_inv ls proj true pr hpl with
    ⟨hnew, hfl, hcase⟩ | ⟨hnew, -, hflnone, hpr⟩
  · -- an existing, fully closed line is found; an open punch is appended to it
    rcases hcase with ⟨-, -, hclosed, -⟩ | ⟨hcon, -⟩
    swap
    · exact absurd hcon (by simp)
    obtain ⟨hmem0, hmatch, -⟩ := findLine_some proj ls.projLines pr.idx pr.line hfl
    have hmemL : pr.line ∈ ls.projLines := List.getElem?_mem hmem0
    have hidx : pr.idx < ls.projLines.length := (List.getElem?_eq_some.mp hmem0).1
    refine linesWF_intro _ (Or.inl rfl) hproj ?_ ?_
    · intro q hq
      simp only [hnew, Bool.false_eq_true, if_false] at hq
      rcases List.mem_or_eq_of_mem_set hq with hq2 | hq2
      · exact ⟨(hallc q hq2).1, (hallc q hq2).2.1⟩
      · subst hq2
        refine ⟨(hallc pr.line hmemL).1, ?_⟩
        unfold punchesWF
        simp only [List.dropLast_concat, List.all_eq_true]
        exact hclosed
    · right
      refine ⟨rfl, pr.idx,
        { pr.line with punches := pr.line.punches ++ [Punch.opn t] }, ?_, ?_⟩
      · show findLine proj _ = _
        simp only [hnew, Bool.false_eq_true, if_false]
        rw [findLine_set_congr proj ls.projLines pr.idx _ ?hst]
        case hst =>
          intro pl' hpl'
          rw [hmem0] at hpl'
          injection hpl' with he
          subst he
          rw [hmatch]
          exact lineMatches_snoc (Punch.opn t) hmatch
        rw [hfl]
        simp
      · show onlyOpenAt _ pr.idx = true
        simp only [hnew, Bool.false_eq_true, if_false]
        rw [onlyOpenAt_iff]
        constructor
        · refine ⟨{ pr.line with punches := pr.line.punches ++ [Punch.opn t] },
            List.getElem?_set_self hidx, ?_⟩
          simp [openAt, List.getLast?_concat]
        · intro k q hq hk
          rw [List.getElem?_set_ne (Ne.symm hk)] at hq
          exact (hallc q (List.getElem?_mem hq)).2.2
  · -- no line matched: a fresh line is appended, carrying the open punch
    subst hpr
    refine linesWF_intro _ (Or.inl rfl) hproj ?_ ?_
    · intro q hq
      rcases List.mem_append.mp hq with hq2 | hq2
      · exact ⟨(hallc q hq2).1, (hallc q hq2).2.1⟩
      · rw [List.mem_singleton] at hq2
        subst hq2
        exact ⟨hproj, by simp [punchesWF]⟩
    · right
      refine ⟨rfl, ls.projLines.length,
        { name := proj, total := "0", punches := [] ++ [Punch.opn t] }, ?_, ?_⟩
      · show findLine proj (ls.projLines ++ _) = _
        rw [findLine_append_none proj _ _ hflnone]
        have hm : lineMatches proj
            { name := proj, total := "0", punches := [] ++ [Punch.opn t] } = true :=
          lineMatches_self { name := proj, total := "0", punches := [] ++ [Punch.opn t] }
        rw [if_pos hm]
      · show onlyOpenAt (ls.projLines ++ _) ls.projLines.length = true
        rw [onlyOpenAt_iff]
        constructor
        · exact ⟨_, List.getElem?_concat_length _ _, by simp [openAt]⟩
        · intro k q hq hk
          have hklt : k < ls.projLines.length + 1 := by
            have := (List.getElem?_eq_some.mp hq).1
            simpa using this
          have hk2 : k < ls.projLines.length := by omega
          rw [List.getElem?_append_left hk2] at hq
          exact (hallc q (List.getElem?_mem hq)).2.2

/-- `clock_out` preserves the invariant. -/
theorem clock_out_preserves (ls : Lines) (pt : Option String) (now : Nat)
    (ls' : Lines) (out : List Msg) (hinv : InvS ls)
    (h : clock_out ls pt now = .ok ⟨some ls', out⟩) : InvS ls' := by
  obtain ⟨pr, t, last, hne, hfin, hpl, -, hlast, hstate⟩ :=
    clock_out_inv ls pt now ls' out h
  have hyes : ls.clockedF = YES := by
    rcases InvS_flag ls hinv with h1 | h1
    · exact h1
    · rw [h1] at hfin; simp at hfin
  obtain ⟨j, pl, hfl, honly, hwf, hnlast⟩ := InvS_yes ls hinv hyes
  rcases parse_line_inv ls ls.lastProj false pr hpl with
    ⟨-, hfl2, hcase⟩ | ⟨-, hcon, -, -⟩
  swap
  · exact absurd hcon (by simp)
  rcases hcase with ⟨hcon, -⟩ | ⟨-, a, -, -, hdcl, -⟩
  · exact absurd hcon (by simp)
  rw [hfl] at hfl2
  simp only [Option.some.injEq, Prod.mk.injEq] at hfl2
  obtain ⟨hj, hpl3⟩ := hfl2
  subst hj
  subst hpl3
  obtain ⟨hmem0, -, -⟩ := findLine_some ls.lastProj ls.projLines pr.idx pr.line hfl
  have hidx : pr.idx < ls.projLines.length := (List.getElem?_eq_some.mp hmem0).1
  have hmemL : pr.line ∈ ls.projLines := List.getElem?_mem hmem0
  have hoth := (onlyOpenAt_iff.mp honly).2
  subst hstate
  refine linesWF_intro _ (Or.inr rfl) hnlast ?_ ?_
  · intro q hq
    rcases List.mem_or_eq_of_mem_set hq with hq2 | hq2
    · exact hwf q hq2
    · subst hq2
      refine ⟨(hwf pr.line hmemL).1, ?_⟩
      unfold punchesWF
      simp only [List.dropLast_concat, List.all_eq_true]
      exact hdcl
  · left
    refine ⟨rfl, ?_⟩
    intro q hq
    obtain ⟨k, hk⟩ := List.getElem?_of_mem hq
    by_cases hkj : k = pr.idx
    · subst hkj
      rw [List.getElem?_set_self hidx] at hk
      injection hk with hk2
      subst hk2
      simp [openAt, List.getLast?_concat]
    · rw [List.getElem?_set_ne (Ne.symm hkj)] at hk
      exact hoth k q hk hkj

/-- `switch_project` preserves the invariant when its project argument
is separator-free after lower-casing. -/
theorem switch_preserves (ls : Lines) (p0 : String) (now : Nat)
    (ls' : Lines) (out : List Msg) (hinv : InvS ls)
    (harg : nameWF (strLower p0) = true)
    (h : switch_project ls p0 now = .ok ⟨some ls', out⟩) : InvS ls' := by
  obtain ⟨p1, p2, hne, hp1, hp2, hcase⟩ := switch_inv ls p0 now ls' out h
  rcases hcase with ⟨hfin, hstate⟩ | ⟨l1, hfin, hl1, hstate⟩
  · -- clocked out: the looked-up (or fresh) line is renamed, nothing opens
    have hno : ls.clockedF = NO := by simpa using hfin
    obtain ⟨hallc, -⟩ := InvS_no ls hinv hno
    subst hstate
    rcases parse_line_inv ls (strLower p0) true p2 hp2 with
      ⟨hnew2, hfl2, -⟩ | ⟨hnew2, -, -, hpr2⟩
    · obtain ⟨hmem2, -, -⟩ :=
        findLine_some (strLower p0) ls.projLines p2.idx p2.line hfl2
      have hmemL2 : p2.line ∈ ls.projLines := List.getElem?_mem hmem2
      refine linesWF_intro _ (Or.inr hno) harg ?_ ?_
      · intro q hq
        simp only [hnew2, Bool.false_eq_true, if_false] at hq
        rcases List.mem_or_eq_of_mem_set hq with hq2 | hq2
        · exact ⟨(hallc q hq2).1, (hallc q hq2).2.1⟩
        · subst hq2
          exact ⟨(hallc p2.line hmemL2).1, (hallc p2.line hmemL2).2.1⟩
      · left
        refine ⟨hno, ?_⟩
        intro q hq
        simp only [hnew2, Bool.false_eq_true, if_false] at hq
        rcases List.mem_or_eq_of_mem_set hq with hq2 | hq2
        · exact (hallc q hq2).2.2
        · subst hq2
          exact (hallc p2.line hmemL2).2.2
    · subst hpr2
      refine linesWF_intro _ (Or.inr hno) harg ?_ ?_
      · intro q hq
        simp only [hnew2, if_true] at hq
        rcases List.mem_append.mp hq with hq2 | hq2
        · exact ⟨(hallc q hq2).1, (hallc q hq2).2.1⟩
        · rw [List.mem_singleton] at hq2
          subst hq2
          exact ⟨harg, by simp [punchesWF]⟩
      · left
        refine ⟨hno, ?_⟩
        intro q hq
        simp only [hnew2, if_true] at hq
        rcases List.mem_append.mp hq with hq2 | hq2
        · exact (hallc q hq2).2.2
        · rw [List.mem_singleton] at hq2
          subst hq2
          simp [openAt]
  · -- clocked in: the open line is closed at `now`, the target opened at `now`
    have hyes : ls.clockedF = YES := by
      rcases InvS_flag ls hinv with h1 | h1
      · exact h1
      · rw [h1] at hfin; simp at hfin
    obtain ⟨j, pl, hfl, honly, hwf, -⟩ := InvS_yes ls hinv hyes
    rw [hfin] at hp1
    rcases parse_line_inv ls ls.lastProj false p1 hp1 with
      ⟨-, hfl1, hcase1⟩ | ⟨-, hcon, -, -⟩
    swap
    · exact absurd hcon (by simp)
    rcases hcase1 with ⟨hcon, -⟩ | ⟨-, a, -, hgl1, hdcl1, -⟩
    · exact absurd hcon (by simp)
    rw [hfl] at hfl1
    simp only [Option.some.injEq, Prod.mk.injEq] at hfl1
    obtain ⟨hj, hpl3⟩ := hfl1
    subst hj
    subst hpl3
    obtain ⟨hmem1, -, -⟩ :=
      findLine_some ls.lastProj ls.projLines p1.idx p1.line hfl
    have hidx1 : p1.idx < ls.projLines.length := (List.getElem?_eq_some.mp hmem1).1
    have hmemL1 : p1.line ∈ ls.projLines := List.getElem?_mem hmem1
    have hoth := (onlyOpenAt_iff.mp honly).2
    subst hstate
    rcases parse_line_inv ls (strLower p0) true p2 hp2 with
      ⟨hnew2, hfl2, hcase2⟩ | ⟨hnew2, -, hflnone2, hpr2⟩
    · -- the target name resolves to an existing, fully closed line
      rcases hcase2 with ⟨-, -, hclosed2, -⟩ | ⟨hcon, -⟩
      swap
      · exact absurd hcon (by simp)
      obtain ⟨hmem2, hmatch2, -⟩ :=
        findLine_some (strLower p0) ls.projLines p2.idx p2.line hfl2
      have hidx2 : p2.idx < ls.projLines.length := (List.getElem?_eq_some.mp hmem2).1
      have hmemL2 : p2.line ∈ ls.projLines := List.getElem?_mem hmem2
      have hne12 : p1.idx ≠ p2.idx := by
        intro hc
        rw [hc, hmem2] at hmem1
        injection hmem1 with he
        have hm := List.mem_of_mem_getLast? hgl1
        rw [← he] at hm
        have := hclosed2 _ hm
        simp [isClosedPunch] at this
      simp only [hnew2, Bool.false_eq_true, if_false]
      refine linesWF_intro _ (Or.inl hyes) harg ?_ ?_
      · intro q hq
        rcases List.mem_or_eq_of_mem_set hq with hq2 | hq2
        · rcases List.mem_or_eq_of_mem_set hq2 with hq3 | hq3
          · exact hwf q hq3
          · subst hq3
            refine ⟨(hwf p1.line hmemL1).1, ?_⟩
            unfold punchesWF
            simp only [List.dropLast_concat, List.all_eq_true]
            exact hdcl1
        · subst hq2
          refine ⟨(hwf p2.line hmemL2).1, ?_⟩
          unfold punchesWF
          simp only [List.dropLast_concat, List.all_eq_true]
          exact hclosed2
      · right
        refine ⟨hyes, p2.idx,
          { p2.line with punches := p2.line.punches ++ [Punch.opn now] }, ?_, ?_⟩
        · show findLine (strLower p0) _ = _
          have hstep : findLine (strLower p0)
              (ls.projLines.set p1.idx
                { p1.line with
                    total := fnum ((p1.times ++ [(now : Int) - (l1 : Int)]).sum)
                    punches := p1.line.punches.dropLast ++ [Punch.closed l1 now] }) =
              some (p2.idx, p2.line) := by
            rw [findLine_set_congr (strLower p0) ls.projLines p1.idx _ ?hstA]
            case hstA =>
              intro pl' hpl'
              rw [hmem1] at hpl'
              injection hpl' with he
              subst he
              exact lineMatches_name_eq (strLower p0) harg rfl
            rw [hfl2]
            simp only [Option.map_some']
            rw [if_neg (Ne.symm hne12)]
          rw [findLine_set_congr (strLower p0) _ p2.idx _ ?hstB]
          case hstB =>
            intro pl' hpl'
            rw [List.getElem?_set_ne hne12, hmem2] at hpl'
            injection hpl' with he
            subst he
            rw [hmatch2]
            exact lineMatches_snoc (Punch.opn now) hmatch2
          rw [hstep]
          simp
        · show onlyOpenAt _ p2.idx = true
          rw [onlyOpenAt_iff]
          constructor
          · refine ⟨{ p2.line with punches := p2.line.punches ++ [Punch.opn now] },
              ?_, by simp [openAt, List.getLast?_concat]⟩
            rw [List.getElem?_set_self (by simpa using hidx2)]
          · intro k q hq hk
            rw [List.getElem?_set_ne (Ne.symm hk)] at hq
            by_cases hkj : k = p1.idx
            · subst hkj
              rw [List.getElem?_set_self hidx1] at hq
              injection hq with hq2
              subst hq2
              simp [openAt, List.getLast?_concat]
            · rw [List.getElem?_set_ne (Ne.symm hkj)] at hq
              exact hoth k q hq hkj
    · -- the target name matches no line: a fresh line is appended and opened
      subst hpr2
      simp only [hnew2, if_true]
      refine linesWF_intro _ (Or.inl hyes) harg ?_ ?_
      · intro q hq
        rcases List.mem_append.mp hq with hq2 | hq2
        · rcases List.mem_or_eq_of_mem_set hq2 with hq3 | hq3
          · exact hwf q hq3
          · subst hq3
            refine ⟨(hwf p1.line hmemL1).1, ?_⟩
            unfold punchesWF
            simp only [List.dropLast_concat, List.all_eq_true]
            exact hdcl1
        · rw [List.mem_singleton] at hq2
          subst hq2
          exact ⟨harg, by simp [punchesWF]⟩
      · right
        refine ⟨hyes, ls.projLines.length, { name := strLower p0, total := "0", punches := [] ++ [Punch.opn now] }, ?_, ?_⟩
        · show findLine (strLower p0) _ = _
          have hnone : findLine (strLower p0)
              (ls.projLines.set p1.idx
                { p1.line with
                    total := fnum ((p1.times ++ [(now : Int) - (l1 : Int)]).sum)
                    punches := p1.line.punches.dropLast ++ [Punch.closed l1 now] }) =
              none := by
            rw [findLine_set_congr (strLower p0) ls.projLines p1.idx _ ?hstC]
            case hstC =>
              intro pl' hpl'
              rw [hmem1] at hpl'
              injection hpl' with he
              subst he
              exact lineMatches_name_eq (strLower p0) harg rfl
            rw [hflnone2]
            rfl
          rw [findLine_append_none (strLower p0) _ _ hnone]
          have hm : lineMatches (strLower p0) { name := strLower p0, total := "0", punches := [] ++ [Punch.opn now] } = true :=
            lineMatches_self
              { name := strLower p0, total := "0", punches := [] ++ [Punch.opn now] }
          rw [if_pos hm]
          simp [List.length_set]
        · show onlyOpenAt _ ls.projLines.length = true
          rw [onlyOpenAt_iff]
          constructor
          · refine ⟨{ name := strLower p0, total := "0", punches := [] ++ [Punch.opn now] }, ?_, by simp [openAt]⟩
            have := List.getElem?_concat_length
              (ls.projLines.set p1.idx
                { p1.line with
                    total := fnum ((p1.times ++ [(now : Int) - (l1 : Int)]).sum)
                    punches := p1.line.punches.dropLast ++ [Punch.closed l1 now] })
              { name := strLower p0, total := "0", punches := [] ++ [Punch.opn now] }
            simp only [List.length_set] at this
            exact this
          · intro k q hq hk
            have hklt : k < ls.projLines.length + 1 := by
              have := (List.getElem?_eq_some.mp hq).1
              simpa [List.length_set] using this
            have hk2 : k < ls.projLines.length := by omega
            rw [List.getElem?_append_left (by simpa [List.length_set] using hk2)] at hq
            by_cases hkj : k = p1.idx
            · subst hkj
              rw [List.getElem?_set_self hidx1] at hq
              injection hq with hq2
              subst hq2
              simp [openAt, List.getLast?_concat]
            · rw [List.getElem?_set_ne (Ne.symm hkj)] at hq
              exact hoth k q hq hkj

/-- Every ledger reachable through well-formed operations satisfies the
invariant. -/
theorem reachableWF_InvS (ls : Lines) (h : ReachableWF ls) : InvS ls := by
  induction h with
  | init now => rfl
  | stepIn ls0 ls1 p pt now out h0 harg hw ih =>
    exact clock_in_preserves ls0 p pt now ls1 out ih harg hw
  | stepOut ls0 ls1 pt now out h0 hw ih =>
    exact clock_out_preserves ls0 pt now ls1 out ih hw
  | stepSwitch ls0 ls1 p now out h0 harg hw ih =>
    exact switch_preserves ls0 p now ls1 out ih harg hw

/-- The invariant yields the claim-level open-punch properties: at most
one open line, and the flag set exactly when the prefix lookup of
`lastProj` finds an open line. -/
theorem InvS_claims (ls : Lines) (hinv : InvS ls) :
    countOpen ls ≤ 1 ∧
      (ls.clockedF = YES ↔
        ∃ j pl, findLine ls.lastProj ls.projLines = some (j, pl) ∧
          openAt pl = true) := by
  rcases InvS_flag ls hinv with hyes | hno
  · obtain ⟨j, pl, hfl, honly, -, -⟩ := InvS_yes ls hinv hyes
    have h1 := countOpen_of_onlyOpenAt honly
    refine ⟨by unfold countOpen; omega, ?_⟩
    constructor
    · intro _
      obtain ⟨hmem, -, -⟩ := findLine_some ls.lastProj ls.projLines j pl hfl
      obtain ⟨⟨pl2, hpl2, hop⟩, -⟩ := onlyOpenAt_iff.mp honly
      rw [hmem] at hpl2
      injection hpl2 with he
      subst he
      exact ⟨j, pl, hfl, hop⟩
    · intro _
      exact hyes
  · obtain ⟨hallc, -⟩ := InvS_no ls hinv hno
    have hf : ls.projLines.filter openAt = [] := by
      rw [List.filter_eq_nil_iff]
      intro a ha
      simp [(hallc a ha).2.2]
    refine ⟨by unfold countOpen; rw [hf]; simp, ?_⟩
    constructor
    · intro hc
      exact absurd (hno.symm.trans hc) (by decide)
    · rintro ⟨j, pl, hfl, hop⟩
      obtain ⟨hmem, -, -⟩ := findLine_some ls.lastProj ls.projLines j pl hfl
      have hcl := (hallc pl (List.getElem?_mem hmem)).2.2
      rw [hcl] at hop
      exact absurd hop (by simp)

/-- **C1, counterexample.**  The literal claim ties the clocked-in flag
to an open punch *belonging to `last_project`*.  The reachable ledger
obtained by `clock_in alpha` at 100, `clock_out` at 200, then
`clock_in al` at 300 (all arguments well-formed) is clocked in with
`last_project = "al"`, yet no project line is named `al`: the prefix
lookup landed the open punch on `alpha`'s line. -/
theorem C1_cex :
    ReachableWF exAfterAl ∧
    exAfterAl.clockedF = YES ∧
    countOpen exAfterAl = 1 ∧
    ¬ (∃ pl ∈ exAfterAl.projLines,
        pl.name = exAfterAl.lastProj ∧ openAt pl = true) := by
  refine ⟨?_, rfl, by decide, by decide⟩
  have h1 : ReachableWF (initLedger 0) := ReachableWF.init 0
  have h2 : ReachableWF exIn :=
    ReachableWF.stepIn (initLedger 0) exIn (some "alpha") none 100
      [Msg.createdProject "alpha", Msg.clockInProject "alpha",
       Msg.inAt "100", Msg.projTotal "alpha" "0:0:0"]
      h1 (by decide) (by decide)
  have h3 : ReachableWF exOut :=
    ReachableWF.stepOut exIn exOut none 200
      [Msg.clockOutProject "alpha", Msg.inOutAt "100" "200",
       Msg.totalPunch "alpha" "0:1:40" "0:1:40"]
      h2 (by decide)
  exact ReachableWF.stepIn exOut exAfterAl (some "al") none 300
    [Msg.clockInProject "al", Msg.inAt "300", Msg.projTotal "al" "0:1:40"]
    h3 (by decide) (by decide)

/-- **C1 (amended).**  The fresh ledger satisfies the inductive
invariant `linesWF`; every ledger reachable through written operations
with separator-free arguments satisfies it, and hence has at most one
line with an open punch, with the clocked-in flag set exactly when the
prefix lookup of `last_project` finds a line whose last punch is open
(the found line need not be *named* `last_project`, per the
counterexample); and each of the three mutating operations preserves
the invariant. -/
theorem C1_invariant_reachable :
    (∀ now, InvS (initLedger now)) ∧
    (∀ ls, ReachableWF ls → InvS ls ∧ countOpen ls ≤ 1 ∧
      (ls.clockedF = YES ↔
        ∃ j pl, findLine ls.lastProj ls.projLines = some (j, pl) ∧
          openAt pl = true)) ∧
    (∀ ls p pt now ls' out, InvS ls → optArgWF p →
      clock_in ls p pt now = .ok ⟨some ls', out⟩ → InvS ls') ∧
    (∀ ls pt now ls' out, InvS ls →
      clock_out ls pt now = .ok ⟨some ls', out⟩ → InvS ls') ∧
    (∀ ls p now ls' out, InvS ls → nameWF (strLower p) = true →
      switch_project ls p now = .ok ⟨some ls', out⟩ → InvS ls') := by
  refine ⟨fun now => rfl, ?_, clock_in_preserves, clock_out_preserves,
    switch_preserves⟩
  intro ls h
  have hinv := reachableWF_InvS ls h
  exact ⟨hinv, InvS_claims ls hinv⟩

/-- **C1, witness.** -/
theorem C1_witness :
    InvS exIn ∧ countOpen exIn ≤ 1 ∧
      (exIn.clockedF = YES ↔
        ∃ j pl, findLine exIn.lastProj exIn.projLines = some (j, pl) ∧
          openAt pl = true) :=
  C1_invariant_reachable.2.1 exIn
    (ReachableWF.stepIn (initLedger 0) exIn (some "alpha") none 100
      [Msg.createdProject "alpha", Msg.clockInProject "alpha",
       Msg.inAt "100", Msg.projTotal "alpha" "0:0:0"]
      (ReachableWF.init 0) (by decide) (by decide))

/-- **C3, counterexample.**  The claim quantifies over *every* project
name `q`; taking `q` to be the clocked-in project itself (`beta` on a
ledger clocked in on `beta`), `switch_project` raises the unstructured
unpacking `ValueError` instead of closing and reopening a punch, so no
new punch with `time_in = time_out` is created and nothing is written. -/
theorem C3_cex :
    exInBeta.clockedF = YES ∧
    switch_project exInBeta "beta" 200 = .error Err.unpackErr :=
  ⟨rfl, by decide⟩

/-- **C3 (amended).**  Whenever `switch_project` on a clocked-in ledger
succeeds in writing (which excludes target names resolving to the line
holding the open punch, per the counterexample), the current line's
open punch is closed at `now` and the target line gains an open punch
whose `time_in` is the same `now` — no gap and no overlap — while
`last_project` becomes the lower-cased target and the clocked-in flag
is unchanged. -/
theorem C3_switch_no_gap (ls : Lines) (q : String) (now : Nat)
    (ls' : Lines) (out : List Msg)
    (hin : (ls.clockedF == NO) = false)
    (h : switch_project ls q now = .ok ⟨some ls', out⟩) :
    ls'.clockedF = ls.clockedF ∧
    ls'.lastProj = strLower q ∧
    ∃ p1 p2 l1,
      parse_line ls ls.lastProj false = .ok p1 ∧
      parse_line ls (strLower q) true = .ok p2 ∧
      p1.line.punches.getLast? = some (Punch.opn l1) ∧
      (∃ pl1', ls'.projLines[p1.idx]? = some pl1' ∧
        pl1'.punches = p1.line.punches.dropLast ++ [Punch.closed l1 now]) ∧
      (∃ k2 : Nat, ls'.projLines[k2]? = some
        { p2.line with punches := p2.line.punches ++ [Punch.opn now] }) := by
  obtain ⟨p1, p2, hne, hp1, hp2, hcase⟩ := switch_inv ls q now ls' out h
  rcases hcase with ⟨hfin, -⟩ | ⟨l1, -, hl1, hstate⟩
  · rw [hfin] at hin
    exact absurd hin (by simp)
  · rw [hin] at hp1
    rcases parse_line_inv ls ls.lastProj false p1 hp1 with
      ⟨-, hfl1, hcase1⟩ | ⟨-, hcon, -, -⟩
    swap
    · exact absurd hcon (by simp)
    rcases hcase1 with ⟨hcon, -⟩ | ⟨-, a, hlasta, hgl1, -, -⟩
    · exact absurd hcon (by simp)
    rw [hl1] at hlasta
    injection hlasta with hal
    subst hal
    obtain ⟨hmem1, -, -⟩ :=
      findLine_some ls.lastProj ls.projLines p1.idx p1.line hfl1
    have hidx1 : p1.idx < ls.projLines.length := (List.getElem?_eq_some.mp hmem1).1
    subst hstate
    refine ⟨rfl, rfl, p1, p2, l1, hp1, hp2, hgl1, ?_⟩
    rcases parse_line_inv ls (strLower q) true p2 hp2 with
      ⟨hnew2, hfl2, hcase2⟩ | ⟨hnew2, -, -, hpr2⟩
    · -- the target resolves to an existing, fully closed line
      rcases hcase2 with ⟨-, -, hclosed2, -⟩ | ⟨hcon, -⟩
      swap
      · exact absurd hcon (by simp)
      obtain ⟨hmem2, -, -⟩ :=
        findLine_some (strLower q) ls.projLines p2.idx p2.line hfl2
      have hidx2 : p2.idx < ls.projLines.length := (List.getElem?_eq_some.mp hmem2).1
      have hne12 : p1.idx ≠ p2.idx := by
        intro hc
        rw [hc, hmem2] at hmem1
        injection hmem1 with he
        have hm := List.mem_of_mem_getLast? hgl1
        rw [← he] at hm
        have hcl := hclosed2 _ hm
        simp [isClosedPunch] at hcl
      constructor
      · refine ⟨{ p1.line with
            total := fnum ((p1.times ++ [(now : Int) - (l1 : Int)]).sum)
            punches := p1.line.punches.dropLast ++ [Punch.closed l1 now] }, ?_, rfl⟩
        dsimp only
        simp only [hnew2, Bool.false_eq_true, if_false]
        rw [List.getElem?_set_ne (Ne.symm hne12), List.getElem?_set_self hidx1]
      · refine ⟨p2.idx, ?_⟩
        dsimp only
        simp only [hnew2, Bool.false_eq_true, if_false]
        rw [List.getElem?_set_self (by simpa using hidx2)]
    · -- the target matches no line: a fresh line is appended and opened
      subst hpr2
      constructor
      · refine ⟨{ p1.line with
            total := fnum ((p1.times ++ [(now : Int) - (l1 : Int)]).sum)
            punches := p1.line.punches.dropLast ++ [Punch.closed l1 now] }, ?_, rfl⟩
        dsimp only
        simp only [hnew2, if_true]
        rw [List.getElem?_append_left (by simpa using hidx1),
          List.getElem?_set_self hidx1]
      · refine ⟨(ls.projLines.set p1.idx
          { p1.line with
              total := fnum ((p1.times ++ [(now : Int) - (l1 : Int)]).sum)
              punches := p1.line.punches.dropLast ++ [Punch.closed l1 now] }).length, ?_⟩
        dsimp only
        simp only [hnew2, if_true]
        exact List.getElem?_concat_length _ _

/-- **C3, witness.** -/
theorem C3_witness :
    exSwitched.clockedF = exIn.clockedF ∧
    exSwitched.lastProj = strLower "beta" ∧
    ∃ p1 p2 l1,
      parse_line exIn exIn.lastProj false = .ok p1 ∧
      parse_line exIn (strLower "beta") true = .ok p2 ∧
      p1.line.punches.getLast? = some (Punch.opn l1) ∧
      (∃ pl1', exSwitched.projLines[p1.idx]? = some pl1' ∧
        pl1'.punches = p1.line.punches.dropLast ++ [Punch.closed l1 200]) ∧
      (∃ k2 : Nat, exSwitched.projLines[k2]? = some
        { p2.line with punches := p2.line.punches ++ [Punch.opn 200] }) :=
  C3_switch_no_gap exIn "beta" 200 exSwitched
    [Msg.createdProject "beta", Msg.clockOutProject "alpha",
     Msg.switchInProject "beta", Msg.inNow "alpha" "100" "200",
     Msg.totalPunch "alpha" "0:1:40" "0:1:40", Msg.projTotal "beta" "0:0:0"]
    (by decide) (by decide)

/-- **C9, witness.** -/
theorem C9_witness :
    (OpResult.mk none
      [Msg.statusIn "alpha", Msg.inNowAt "100" "300",
       Msg.totalPunch "alpha" "0:3:20" "0:3:20"]).written = none :=
  C9_queries_read_only.1 exIn 300
    ⟨none, [Msg.statusIn "alpha", Msg.inNowAt "100" "300",
            Msg.totalPunch "alpha" "0:3:20" "0:3:20"]⟩ (by decide)

end Workclock
